import Mathlib

/-!
Verification of the MCTS decision engine of this repository
(Project3/agent.h, class player).

The engine is shallowly embedded: the board, the move type and the
position adapter (board.h / action.h, external collaborators per spec
section 6) are parameters; applying a move to a position is a function
returning the successor position when the move is legal and nothing
otherwise.  std::shuffle together with the seeded random engine is
modelled by an oracle stream of rank lists, every shuffle consumes one
entry and produces a permutation of its input.  Floating point counters
are modelled by rationals; std::log on float is modelled by an abstract
function lg; the exact real-valued score expression of agent.h line 316
is additionally transcribed over the reals where a claim is about the
formula itself.  The potentially unbounded loops (the rollout loop and
the recursive descent) take an explicit fuel argument.
-/

namespace MCTS

section Model

variable {B M : Type}

/-- Search-tree node, agent.h lines 157-163 (struct node: state,
visit_count, win_count, uct_value, childs).  The extra field
rollout_count is a specification ghost variable counting how many times
this node was handed directly to simulation(); it does not exist in the
source and no executable decision in the model reads it. -/
inductive Node (B : Type) : Type where
  | mk (state : B) (visit_count : ℚ) (win_count : ℚ) (uct_value : ℚ)
      (rollout_count : ℕ) (childs : List (Node B))

/-- Projection: the stored position. -/
def Node.state : Node B → B
  | .mk s _ _ _ _ _ => s

/-- Projection: visit_count. -/
def Node.visit_count : Node B → ℚ
  | .mk _ v _ _ _ _ => v

/-- Projection: win_count. -/
def Node.win_count : Node B → ℚ
  | .mk _ _ w _ _ _ => w

/-- Projection: uct_value. -/
def Node.uct_value : Node B → ℚ
  | .mk _ _ _ u _ _ => u

/-- Projection: the ghost rollout counter. -/
def Node.rollout_count : Node B → ℕ
  | .mk _ _ _ _ r _ => r

/-- Projection: the ordered child list. -/
def Node.childs : Node B → List (Node B)
  | .mk _ _ _ _ _ cs => cs

/-- Replace the child list, keeping every statistic. -/
def Node.withChilds : Node B → List (Node B) → Node B
  | .mk s v w u r _, cs => .mk s v w u r cs

/-- Increment the ghost rollout counter. -/
def Node.bumpRollout : Node B → Node B
  | .mk s v w u r cs => .mk s v w u (r + 1) cs

/-- new_node, agent.h lines 165-172: zero statistics, sentinel score
10000, no children. -/
def newNode (state : B) : Node B :=
  .mk state 0 0 10000 0 []

/-- The engine context: the position adapter (apply), the shuffle
oracle, the model of std::log on float, the exploration weight c read
from the configuration, and the fuel bound for one rollout loop. -/
structure Ctx (B M : Type) where
  apply : M → B → Option B
  oracle : ℕ → List ℕ
  lg : ℚ → ℚ
  c : ℚ
  sfuel : ℕ

/-- The mutable engine members threaded through a decision: the two
candidate vectors space and opp_space (mutated in place by std::shuffle),
the our_turn flag, the global playout counter total_count, the shuffle
oracle cursor, and a ghost count of nodes allocated with new. -/
structure SState (M : Type) where
  spc : List M
  opp : List M
  our_turn : Bool
  total : ℚ
  ridx : ℕ
  alloc : ℕ

/-- One std::shuffle: consume one rank list from the oracle and use it
to repeatedly pick (and remove) an element; the result is always a
permutation of the input. -/
def pickRanks : List ℕ → List α → List α
  | [], l => l
  | _ :: _, [] => []
  | r :: rs, a :: t =>
    let l := a :: t
    let i := r % l.length
    l.get ⟨i, Nat.mod_lt _ (Nat.succ_pos _)⟩ :: pickRanks rs (l.eraseIdx i)

/-- Shuffle the member vector space and store it back (agent.h line 194). -/
def shuffleSpc (ctx : Ctx B M) (st : SState M) : List M × SState M :=
  let l := pickRanks (ctx.oracle st.ridx) st.spc
  (l, { st with spc := l, ridx := st.ridx + 1 })

/-- Shuffle the member vector opp_space and store it back (line 206). -/
def shuffleOpp (ctx : Ctx B M) (st : SState M) : List M × SState M :=
  let l := pickRanks (ctx.oracle st.ridx) st.opp
  (l, { st with opp := l, ridx := st.ridx + 1 })

/-- Shuffle a child list (agent.h line 283). -/
def shuffleChilds (ctx : Ctx B M) (st : SState M) (cs : List (Node B)) :
    List (Node B) × SState M :=
  (pickRanks (ctx.oracle st.ridx) cs, { st with ridx := st.ridx + 1 })

/-- Walk a candidate list and return the position after the first legal
move, if any (the break-on-first-legal loops of agent.h lines 195-202
and 207-214). -/
def firstLegal (ap : M → B → Option B) : List M → B → Option B
  | [], _ => none
  | m :: ms, b =>
    match ap m b with
    | some b2 => some b2
    | none => firstLegal ap ms b

/-- The rollout loop of simulation(), agent.h lines 189-220.  count
parity says whose turn it is, win remembers which side made the last
successful move.  Fuel exhaustion returns none (the source loop relies
on the game being finite). -/
def simLoop (ctx : Ctx B M) : ℕ → B → ℕ → Bool → SState M → Option (Bool × SState M)
  | 0, _, _, _, _ => none
  | f + 1, after, count, win, st =>
    if count % 2 = 0 then
      let pr := shuffleSpc ctx st
      match firstLegal ctx.apply pr.1 after with
      | some a2 => simLoop ctx f a2 (count + 1) true pr.2
      | none => some (win, pr.2)
    else
      let pr := shuffleOpp ctx st
      match firstLegal ctx.apply pr.1 after with
      | some a2 => simLoop ctx f a2 (count + 1) false pr.2
      | none => some (win, pr.2)

/-- simulation(), agent.h lines 174-224: initialise count and win from
our_turn, run the rollout loop, then increment total_count. -/
def simulation (ctx : Ctx B M) (st : SState M) (b : B) : Option (Bool × SState M) :=
  let init : ℕ × Bool := if st.our_turn then (0, false) else (1, true)
  match simLoop ctx ctx.sfuel b init.1 init.2 st with
  | some (win, st2) => some (win, { st2 with total := st2.total + 1 })
  | none => none

/-- The expansion loop at the top of insert(), agent.h lines 228-252:
walk the candidate list in its current order, count legal moves with a
post-increment, and append a fresh node whenever the child list is not
longer than the running count.  Returns the new child list, the legal
move count and the updated allocation ghost counter. -/
def expandChilds (ap : M → B → Option B) (state : B) :
    List M → List (Node B) → ℕ → ℕ → List (Node B) × ℕ × ℕ
  | [], cs, n, al => (cs, n, al)
  | m :: ms, cs, n, al =>
    match ap m state with
    | some after =>
      if cs.length ≤ n then expandChilds ap state ms (cs ++ [newNode after]) (n + 1) (al + 1)
      else expandChilds ap state ms cs (n + 1) al
    | none => expandChilds ap state ms cs n al

/-- The common shape of the three index-selection loops of agent.h
(lines 285-290, 293-298 and 137-142): an index initialised to -1 (here
none) and a running maximum initialised to -100, updated on a strict
comparison, optionally filtered by a predicate. -/
def foldMax (key : Node B → ℚ) (p : Node B → Bool) :
    List (Node B) → ℕ → Option ℕ → ℚ → Option ℕ
  | [], _, idx, _ => idx
  | n :: rest, i, idx, mx =>
    if mx < key n ∧ p n then foldMax key p rest (i + 1) (some i) (key n)
    else foldMax key p rest (i + 1) idx mx

/-- Selection among unvisited children (agent.h lines 285-290):
uct_value > max and visit_count == 0. -/
def selUnvisited (cs : List (Node B)) : Option ℕ :=
  foldMax Node.uct_value (fun n => decide (n.visit_count = 0)) cs 0 none (-100)

/-- Selection among all children (agent.h lines 293-298). -/
def selVisited (cs : List (Node B)) : Option ℕ :=
  foldMax Node.uct_value (fun _ => true) cs 0 none (-100)

/-- The most-visited-child loop of take_action, agent.h lines 137-142. -/
def argmaxVisit (cs : List (Node B)) : Option ℕ :=
  foldMax Node.visit_count (fun _ => true) cs 0 none (-100)

/-- Number of children that have been visited, agent.h lines 266-269. -/
def countVisited (cs : List (Node B)) : ℕ :=
  (cs.filter (fun n => decide (n.visit_count ≠ 0))).length

/-- The child-selection step of insert(), agent.h lines 260-299: decide
do_expand by comparing the visited-children count with the legal-move
count; in the expanding case shuffle the child list first and restrict
the selection to unvisited children, otherwise select among all. -/
def selectStep (ctx : Ctx B M) (st : SState M) (cs : List (Node B)) (nlm : ℕ) :
    List (Node B) × Option ℕ × SState M :=
  if countVisited cs ≠ nlm then
    let pr := shuffleChilds ctx st cs
    (pr.1, selUnvisited pr.1, pr.2)
  else (cs, selVisited cs, st)

/-- One backpropagation update of a single node, agent.h lines 313-317:
increment visit_count, add the win credit, and recompute uct_value as
win_count / visit_count + weight * log(total_count) / visit_count. -/
def updNode (ctx : Ctx B M) (total : ℚ) (win : Bool) : Node B → Node B
  | .mk s v w _ r cs =>
    let value : ℚ := if win then 1 else 0
    let v2 := v + 1
    let w2 := w + value
    .mk s v2 w2 (w2 / v2 + ctx.c * ctx.lg total / v2) r cs

/-- Failures of the descent: fuel exhaustion of a model loop, or the
out-of-bounds child access childs[-1] that the source would perform if
no selection loop ever raised its -100 maximum. -/
inductive Err where
  | fuel : Err
  | oob : Err
deriving DecidableEq

/-- insert(), agent.h lines 226-304, one selection/expansion descent.
The update of the path (agent.h update(), lines 306-321) is applied on
the way back up: every node of the descent receives exactly one updNode
with the same win flag and the same total_count, which reproduces the
buffer update_nodes of the source.  Returns the rewritten subtree, the
rollout result and the threaded engine state. -/
def insert (ctx : Ctx B M) : ℕ → Node B → B → SState M → Except Err (Node B × Bool × SState M)
  | 0, _, _, _ => .error .fuel
  | fuel + 1, root, state, st =>
    let moves := if st.our_turn then st.spc else st.opp
    let ex := expandChilds ctx.apply state moves root.childs 0 st.alloc
    let childs1 := ex.1
    let nlm := ex.2.1
    let st1 : SState M := { st with alloc := ex.2.2 }
    let root1 := root.withChilds childs1
    if root1.visit_count = 0 then
      match simulation ctx st1 root1.state with
      | some (win, st2) => .ok (updNode ctx st2.total win root1.bumpRollout, win, st2)
      | none => .error .fuel
    else if nlm = 0 then
      match simulation ctx st1 root1.state with
      | some (win, st2) => .ok (updNode ctx st2.total win root1.bumpRollout, win, st2)
      | none => .error .fuel
    else
      match selectStep ctx st1 childs1 nlm with
      | (_, none, _) => .error .oob
      | (childs2, some i, st2) =>
        match childs2.get? i with
        | none => .error .oob
        | some child =>
          match insert ctx fuel child child.state { st2 with our_turn := ! st2.our_turn } with
          | .ok (child2, win, st3) =>
            .ok (updNode ctx st3.total win (root1.withChilds (childs2.set i child2)), win, st3)
          | .error e => .error e

/-- The playout loop of take_action, agent.h lines 112-116: budget many
cycles, each setting our_turn to true and running one insert from the
root with the original position. -/
def runCycles (ctx : Ctx B M) (fuel : ℕ) :
    ℕ → Node B → B → SState M → Except Err (Node B × SState M)
  | 0, root, _, st => .ok (root, st)
  | b + 1, root, state, st =>
    match insert ctx fuel root state { st with our_turn := true } with
    | .ok (root2, _, st2) => runCycles ctx fuel b root2 state st2
    | .error e => .error e

mutual

/-- delete_node(), agent.h lines 323-327, counting the nodes released:
recursively delete every child, then delete the node itself. -/
def deleteCount : Node B → ℕ
  | .mk _ _ _ _ _ cs => deleteCountL cs + 1

/-- Number of nodes released by delete_node over a child list. -/
def deleteCountL : List (Node B) → ℕ
  | [] => 0
  | c :: cs => deleteCount c + deleteCountL cs

end

/-- The move-mapping loop of take_action, agent.h lines 144-152: walk
the candidate list, and return the first legal move whose resulting
position equals the target position. -/
def findMove [DecidableEq B] (ap : M → B → Option B) :
    List M → B → B → Option M
  | [], _, _ => none
  | m :: ms, state, target =>
    match ap m state with
    | some after => if after = target then some m else findMove ap ms state target
    | none => findMove ap ms state target

/-- Everything the engine produces for one decision: the chosen action
(none is the empty action), the ghost count of nodes released by
delete_node, the final tree just before teardown, and the final engine
state. -/
structure Decision (B M : Type) where
  act : Option M
  freed : ℕ
  tree : Node B
  stF : SState M

/-- Decision extraction, agent.h lines 127-154: reset total_count, on a
childless root return the empty action (without any delete_node call),
otherwise pick the most visited child, delete the tree and return the
first candidate move mapping onto that child, or the empty action if no
candidate maps onto it.  The unreachable branch where the argmax loop
leaves index at -1 (impossible, every visit_count is nonnegative) is
modelled like the childless exit. -/
def decisionExtract [DecidableEq B] (ap : M → B → Option B) (spc : List M)
    (state : B) (root : Node B) : Option M × ℕ :=
  if root.childs.length = 0 then (none, 0)
  else
    match argmaxVisit root.childs with
    | none => (none, 0)
    | some i =>
      match root.childs.get? i with
      | none => (none, 0)
      | some best => (findMove ap spc state best.state, deleteCount root)

/-- take_action, agent.h lines 105-155: build a fresh root, run the
budgeted cycles, then extract the decision. -/
def takeAction [DecidableEq B] (ctx : Ctx B M) (fuel budget : ℕ) (state : B)
    (spc opp : List M) : Except Err (Decision B M) :=
  let root := newNode state
  let st0 : SState M :=
    { spc := spc, opp := opp, our_turn := true, total := 0, ridx := 0, alloc := 1 }
  match runCycles ctx fuel budget root state st0 with
  | .error e => .error e
  | .ok (root2, st2) =>
    let st3 := { st2 with total := 0 }
    let pr := decisionExtract ctx.apply st3.spc state root2
    .ok { act := pr.1, freed := pr.2, tree := root2, stF := st3 }

end Model

section Score

/-- The exact real-number transcription of the score recomputed by
update(), agent.h line 316: win_count / visit_count
+ weight * log(total_count) / visit_count. -/
noncomputable def uctFromCode (w n N c : ℝ) : ℝ :=
  w / n + c * Real.log N / n

/-- The score formula asserted by the specification (section 4.2):
w/n + c * sqrt(ln N / n). -/
noncomputable def uctClaimed (w n N c : ℝ) : ℝ :=
  w / n + c * Real.sqrt (Real.log N / n)

end Score

section Config

/-- Relevant values of board::piece_type for the player constructor. -/
inductive Piece where
  | empty : Piece
  | black : Piece
  | white : Piece
deriving DecidableEq

/-- The key-value pairs parsed into the meta map, in insertion order:
agent::agent prepends name=unknown role=unknown, player::player prepends
name=random role=unknown, then the user arguments follow (agent.h lines
25-32 and 78).  std::map assignment lets a later pair overwrite an
earlier one. -/
def metaPairs (args : List (String × String)) : List (String × String) :=
  [("name", "unknown"), ("role", "unknown"), ("name", "random"), ("role", "unknown")] ++ args

/-- Lookup in the meta map: the last inserted value for the key wins;
none models the std::out_of_range thrown by map::at on a missing key. -/
def metaFind (pairs : List (String × String)) (k : String) : Option String :=
  ((pairs.filter (fun p => p.1 == k)).getLast?).map Prod.snd

/-- name() of the constructed player. -/
def nameOf (args : List (String × String)) : String :=
  (metaFind (metaPairs args) "name").getD "unknown"

/-- role() of the constructed player. -/
def roleOf (args : List (String × String)) : String :=
  (metaFind (metaPairs args) "role").getD "unknown"

/-- The characters rejected in a player name, agent.h line 81. -/
def badNameChars : List Char :=
  ['[', ']', '(', ')', ':', ';', ' ']

/-- player::player, agent.h lines 78-103: throw on a bad name, set who
from role black/white, throw when who stays empty.  The playout budget
and the exploration weight are not touched here. -/
def playerCtor (args : List (String × String)) : Except String Piece :=
  if (nameOf args).toList.any (fun ch => badNameChars.contains ch) then
    .error "invalid name"
  else
    let who :=
      if roleOf args = "black" then Piece.black
      else if roleOf args = "white" then Piece.white
      else Piece.empty
    if who = Piece.empty then .error "invalid role" else .ok who

/-- The configuration reads at the top of take_action, agent.h lines
107-108: simulation_count = stoi(property("N")) and
weight = stof(property("c")).  A missing key makes map::at throw
std::out_of_range before any parse.  stoi and stof are C library
functions outside this repository, so their parses are parameters of
the model, exactly like the position adapter: stoiM s (resp. stofM s)
is none precisely when stoi(s) (resp. stof(s)) would throw
std::invalid_argument, and carries the parsed value otherwise.  The
order of the reads (N first, then c) follows the source. -/
def takeActionConfig (stoiM : String → Option ℤ) (stofM : String → Option ℚ)
    (args : List (String × String)) : Except String (ℤ × ℚ) :=
  match metaFind (metaPairs args) "N" with
  | none => .error "out_of_range: N"
  | some sN =>
    match stoiM sN with
    | none => .error "stoi: invalid argument"
    | some n =>
      match metaFind (metaPairs args) "c" with
      | none => .error "out_of_range: c"
      | some sc =>
        match stofM sc with
        | none => .error "stof: invalid argument"
        | some cw => .ok (n, cw)

end Config

section Invariants

variable {B M : Type}

/-- Number of legal moves of a candidate list at a position. -/
def legalCount (ap : M → B → Option B) (moves : List M) (b : B) : ℕ :=
  (moves.filter (fun m => (ap m b).isSome)).length

/-- Sum of the visit counters of a child list. -/
def childVisitSum (cs : List (Node B)) : ℚ :=
  (cs.map Node.visit_count).sum

/-- A predicate holding at a node and, with alternating side flag, at
every descendant. -/
inductive TreeInv (P : Bool → Node B → Prop) : Bool → Node B → Prop where
  | node (s : Bool) (n : Node B) (hp : P s n)
      (hc : ∀ c ∈ n.childs, TreeInv P (!s) c) : TreeInv P s n

/-- The engine-state invariant: the two candidate vectors stay
permutations of their initial contents and the playout counter is
nonnegative. -/
def SInv (spc0 opp0 : List M) (st : SState M) : Prop :=
  st.spc.Perm spc0 ∧ st.opp.Perm opp0 ∧ 0 ≤ st.total

/-- Hypotheses on the context used by the score invariants: the
exploration weight is nonnegative and the log model is nonnegative from
1 on (true of the real logarithm). -/
def CtxOK (ctx : Ctx B M) : Prop :=
  0 ≤ ctx.c ∧ ∀ q : ℚ, 1 ≤ q → 0 ≤ ctx.lg q

/-- Per-node statistics conservation: the visit counter equals the sum
of the children visit counters plus the number of rollouts run directly
from this node. -/
def ConsP : Bool → Node B → Prop := fun _ n =>
  n.visit_count = childVisitSum n.childs + (n.rollout_count : ℚ)

/-- Per-node score sanity: counters are nonnegative, an unvisited node
carries the sentinel 10000, a visited node carries a nonnegative score,
and the child list is either still empty or exactly one child per legal
move of the side whose turn it is at this depth. -/
def ScoreP (ap : M → B → Option B) (spc0 opp0 : List M) : Bool → Node B → Prop :=
  fun s n =>
    0 ≤ n.visit_count ∧ 0 ≤ n.win_count ∧
    (n.visit_count = 0 → n.uct_value = 10000) ∧
    (n.visit_count ≠ 0 → 0 ≤ n.uct_value) ∧
    (n.childs.length = 0 ∨
      n.childs.length = legalCount ap (if s then spc0 else opp0) n.state)

/-- The statement of the statistics-conservation sentence of the
specification (section 8), literally: the visit counter equals the sum
of the children visit counters plus 1 if the node was ever used directly
as a rollout source, plus 0 otherwise. -/
def claimC2stmt (n : Node B) : Prop :=
  n.visit_count = childVisitSum n.childs +
    (if 0 < n.rollout_count then (1 : ℚ) else 0)

/-- Index of the first child attaining the maximal visit count. -/
def IsFirstArgmaxVisit (cs : List (Node B)) (i : ℕ) : Prop :=
  ∃ h : i < cs.length,
    (∀ t (ht : t < cs.length),
      (cs.get ⟨t, ht⟩).visit_count ≤ (cs.get ⟨i, h⟩).visit_count) ∧
    (∀ t (ht : t < i),
      (cs.get ⟨t, Nat.lt_trans ht h⟩).visit_count < (cs.get ⟨i, h⟩).visit_count)

/-- The rollout exactly as worded by the specification (section 4.3):
sides alternate strictly; the side to move shuffles its full candidate
list and plays the first legal candidate; a side with no legal candidate
ends the rollout and the other side is the winner (equivalently, the
winner is the side that made the last successful move, and a first mover
with no legal move loses).  The returned flag says whether the winner is
the searching agent.  This definition follows the specification text and
is compared with the simulation() transliteration. -/
def specRollout (ctx : Ctx B M) : ℕ → B → Bool → SState M → Option (Bool × SState M)
  | 0, _, _, _ => none
  | f + 1, b, mover, st =>
    let pr := if mover then shuffleSpc ctx st else shuffleOpp ctx st
    match firstLegal ctx.apply pr.1 b with
    | none => some (!mover, pr.2)
    | some b2 => specRollout ctx f b2 (!mover) pr.2

end Invariants

section ConcreteInstances

/-- A game with no legal move at any position: every rollout ends at
once and every tree stays a single node. -/
def ctxN : Ctx ℕ ℕ :=
  { apply := fun _ _ => none, oracle := fun _ => [], lg := fun _ => 0, c := 1, sfuel := 2 }

/-- A game counting stones: positions are stone counts, every move is
legal while fewer than two stones are down. -/
def ctxG : Ctx ℕ ℕ :=
  { apply := fun _ b => if b < 2 then some (b + 1) else none,
    oracle := fun _ => [], lg := fun _ => 0, c := 1, sfuel := 6 }

/-- Initial engine state for the one-candidate games. -/
def stN : SState ℕ :=
  { spc := [0], opp := [0], our_turn := true, total := 0, ridx := 0, alloc := 1 }

/-- Initial engine state for the two-candidate games. -/
def stG : SState ℕ :=
  { spc := [0, 1], opp := [0, 1], our_turn := true, total := 0, ridx := 0, alloc := 1 }

/-- An adapter whose only successor of position 0 is position 1. -/
def ap5 : ℕ → ℕ → Option ℕ := fun _ b => if b = 0 then some 1 else none

/-- A corrupted tree whose single child carries a state (5) that no
legal root move can produce under ap5. -/
def corruptRoot : Node ℕ :=
  Node.mk 0 1 0 0 0 [Node.mk 5 1 0 0 1 []]

/-- A witness parse oracle that accepts every string (as 1): with it,
any configuration error provably comes from a missing key, never from
parser strictness. -/
def stoiAll : String → Option ℤ := fun _ => some 1

/-- A witness parse oracle for the weight that accepts every string. -/
def stofAll : String → Option ℚ := fun _ => some 1

/-- A witness parse oracle for the weight that rejects every string,
standing in for stof on deliberately unparsable values. -/
def stofNone : String → Option ℚ := fun _ => none

/-- The decision produced by one budgeted cycle of the stone game:
the root was expanded to its two children and rolled out once; three
nodes were allocated and three are freed by the teardown. -/
def d9 : Decision ℕ ℕ :=
  { act := some 0, freed := 3,
    tree := Node.mk 0 1 0 0 1 [Node.mk 1 0 0 10000 0 [], Node.mk 1 0 0 10000 0 []],
    stF := { spc := [0, 1], opp := [0, 1], our_turn := true,
             total := 0, ridx := 3, alloc := 3 } }

end ConcreteInstances

section Invariants2

variable {B M : Type}

theorem TreeInv.self {P : Bool → Node B → Prop} {s : Bool} {n : Node B}
    (h : TreeInv P s n) : P s n := by
  cases h with
  | node _ _ hp _ => exact hp

theorem TreeInv.child {P : Bool → Node B → Prop} {s : Bool} {n : Node B}
    (h : TreeInv P s n) : ∀ c ∈ n.childs, TreeInv P (!s) c := by
  cases h with
  | node _ _ _ hc => exact hc

theorem get_cons_eraseIdx_perm :
    ∀ (l : List α) (i : ℕ) (h : i < l.length),
      (l.get ⟨i, h⟩ :: l.eraseIdx i).Perm l := by
  intro l
  induction l with
  | nil => intro i h; exact absurd h (Nat.not_lt_zero i)
  | cons a t ih =>
    intro i h
    cases i with
    | zero => simp [List.eraseIdx]
    | succ j =>
      have hj : j < t.length := Nat.lt_of_succ_lt_succ h
      have h1 : (t.get ⟨j, hj⟩ :: a :: t.eraseIdx j).Perm (a :: t.get ⟨j, hj⟩ :: t.eraseIdx j) :=
        List.Perm.swap a (t.get ⟨j, hj⟩) (t.eraseIdx j)
      have h2 : (a :: t.get ⟨j, hj⟩ :: t.eraseIdx j).Perm (a :: t) :=
        (ih j hj).cons a
      simpa [List.eraseIdx] using h1.trans h2

theorem pickRanks_perm : ∀ (rs : List ℕ) (l : List α), (pickRanks rs l).Perm l := by
  intro rs
  induction rs with
  | nil => intro l; cases l <;> simp [pickRanks]
  | cons r rs ih =>
    intro l
    cases l with
    | nil => simp [pickRanks]
    | cons a t =>
      simp only [pickRanks]
      exact ((ih _).cons _).trans (get_cons_eraseIdx_perm (a :: t) _ _)

/-- Characterization of the expansion loop: the child list is extended
by fresh nodes only, the legal-move counter is advanced by the number of
legal candidates, the list reaches the maximum of its old length and the
counter, and the allocation counter advances with the list length. -/
theorem expandChilds_spec (ap : M → B → Option B) (state : B) :
    ∀ (ms : List M) (cs : List (Node B)) (n al : ℕ), n ≤ cs.length →
      ∃ ext : List (Node B),
        (expandChilds ap state ms cs n al).1 = cs ++ ext ∧
        (∀ x ∈ ext, ∃ b : B, x = newNode b) ∧
        (expandChilds ap state ms cs n al).2.1 = n + legalCount ap ms state ∧
        (expandChilds ap state ms cs n al).1.length =
          max cs.length (n + legalCount ap ms state) ∧
        (expandChilds ap state ms cs n al).2.2 = al + ext.length := by
  intro ms
  induction ms with
  | nil =>
    intro cs n al hn
    exact ⟨[], by simp [expandChilds, legalCount, Nat.max_eq_left hn]⟩
  | cons m ms ih =>
    intro cs n al hn
    by_cases hm : (ap m state).isSome
    · obtain ⟨after, hb⟩ := Option.isSome_iff_exists.mp hm
      have hL : legalCount ap (m :: ms) state = legalCount ap ms state + 1 := by
        simp [legalCount, List.filter_cons, hm]
      by_cases hlen : cs.length ≤ n
      · have hn2 : n = cs.length := Nat.le_antisymm hn hlen
        obtain ⟨ext, h1, h2, h3, h4, h5⟩ :=
          ih (cs ++ [newNode after]) (n + 1) (al + 1) (by simp [hn2])
        have hunf : expandChilds ap state (m :: ms) cs n al
            = expandChilds ap state ms (cs ++ [newNode after]) (n + 1) (al + 1) := by
          simp [expandChilds, hb, hlen]
        refine ⟨newNode after :: ext, ?_, ?_, ?_, ?_, ?_⟩
        · rw [hunf, h1]; simp
        · intro x hx
          rcases List.mem_cons.mp hx with hx | hx
          · exact ⟨after, hx⟩
          · exact h2 x hx
        · rw [hunf, h3, hL]; omega
        · rw [hunf, h4, hL]; simp only [List.length_append, List.length_singleton]; omega
        · rw [hunf, h5]; simp only [List.length_cons]; omega
      · obtain ⟨ext, h1, h2, h3, h4, h5⟩ := ih cs (n + 1) al (Nat.lt_of_not_le hlen)
        have hunf : expandChilds ap state (m :: ms) cs n al
            = expandChilds ap state ms cs (n + 1) al := by
          simp [expandChilds, hb, hlen]
        refine ⟨ext, ?_, h2, ?_, ?_, ?_⟩
        · rw [hunf, h1]
        · rw [hunf, h3, hL]; omega
        · rw [hunf, h4, hL]; omega
        · rw [hunf, h5]
    · have hb : ap m state = none := Option.not_isSome_iff_eq_none.mp hm
      have hL : legalCount ap (m :: ms) state = legalCount ap ms state := by
        simp [legalCount, List.filter_cons, hm]
      obtain ⟨ext, h1, h2, h3, h4, h5⟩ := ih cs n al hn
      have hunf : expandChilds ap state (m :: ms) cs n al
          = expandChilds ap state ms cs n al := by
        simp [expandChilds, hb]
      refine ⟨ext, ?_, h2, ?_, ?_, ?_⟩
      · rw [hunf, h1]
      · rw [hunf, h3, hL]
      · rw [hunf, h4, hL]
      · rw [hunf, h5]

end Invariants2

section Selection

variable {B M : Type}

theorem foldMax_some_acc (key : Node B → ℚ) (p : Node B → Bool) :
    ∀ (l : List (Node B)) (i j : ℕ) (mx : ℚ),
      (foldMax key p l i (some j) mx).isSome := by
  intro l
  induction l with
  | nil => intro i j mx; simp [foldMax]
  | cons n rest ih =>
    intro i j mx
    by_cases h : mx < key n ∧ p n
    · simp only [foldMax, if_pos h]; exact ih _ _ _
    · simp only [foldMax, if_neg h]; exact ih _ _ _

theorem foldMax_sound (key : Node B → ℚ) (p : Node B → Bool) :
    ∀ (l : List (Node B)) (i0 : ℕ) (acc : Option ℕ) (mx : ℚ) (j : ℕ),
      foldMax key p l i0 acc mx = some j →
      acc = some j ∨ ∃ d : ℕ, ∃ hd : d < l.length, j = i0 + d ∧ p (l.get ⟨d, hd⟩) = true := by
  intro l
  induction l with
  | nil => intro i0 acc mx j h; exact Or.inl h
  | cons n rest ih =>
    intro i0 acc mx j h
    by_cases hc : mx < key n ∧ p n
    · simp only [foldMax, if_pos hc] at h
      rcases ih (i0 + 1) (some i0) (key n) j h with h2 | ⟨d, hd, hj, hp⟩
      · have h3 : i0 = j := Option.some.inj h2
        exact Or.inr ⟨0, by simp, by omega, hc.2⟩
      · exact Or.inr ⟨d + 1, by simpa using Nat.succ_lt_succ hd, by omega, hp⟩
    · simp only [foldMax, if_neg hc] at h
      rcases ih (i0 + 1) acc mx j h with h2 | ⟨d, hd, hj, hp⟩
      · exact Or.inl h2
      · exact Or.inr ⟨d + 1, by simpa using Nat.succ_lt_succ hd, by omega, hp⟩

theorem foldMax_isSome (key : Node B → ℚ) (p : Node B → Bool) :
    ∀ (l : List (Node B)) (i0 : ℕ) (acc : Option ℕ) (mx : ℚ),
      (∃ d : ℕ, ∃ hd : d < l.length,
        p (l.get ⟨d, hd⟩) = true ∧ mx < key (l.get ⟨d, hd⟩)) →
      (foldMax key p l i0 acc mx).isSome := by
  intro l
  induction l with
  | nil =>
    intro i0 acc mx ⟨d, hd, _⟩
    exact absurd hd (Nat.not_lt_zero d)
  | cons n rest ih =>
    intro i0 acc mx ⟨d, hd, hp, hmx⟩
    by_cases hc : mx < key n ∧ p n
    · simp only [foldMax, if_pos hc]
      exact foldMax_some_acc key p rest (i0 + 1) i0 (key n)
    · simp only [foldMax, if_neg hc]
      cases d with
      | zero => exact absurd ⟨hmx, hp⟩ hc
      | succ d2 =>
        exact ih (i0 + 1) acc mx ⟨d2, Nat.lt_of_succ_lt_succ hd, hp, hmx⟩

theorem foldMax_cons_true (key : Node B → ℚ) (n : Node B) (rest : List (Node B))
    (i0 : ℕ) (acc : Option ℕ) (mx : ℚ) :
    foldMax key (fun _ => true) (n :: rest) i0 acc mx =
      if mx < key n then foldMax key (fun _ => true) rest (i0 + 1) (some i0) (key n)
      else foldMax key (fun _ => true) rest (i0 + 1) acc mx := by
  simp [foldMax]

theorem foldMax_char (key : Node B → ℚ) :
    ∀ (l : List (Node B)) (i0 : ℕ) (mx : ℚ) (acc : Option ℕ),
      ((∀ x ∈ l, key x ≤ mx) → foldMax key (fun _ => true) l i0 acc mx = acc) ∧
      (∀ d (hd : d < l.length),
        mx < key (l.get ⟨d, hd⟩) →
        (∀ t (ht : t < l.length), key (l.get ⟨t, ht⟩) ≤ key (l.get ⟨d, hd⟩)) →
        (∀ t (ht : t < d), key (l.get ⟨t, Nat.lt_trans ht hd⟩) < key (l.get ⟨d, hd⟩)) →
        foldMax key (fun _ => true) l i0 acc mx = some (i0 + d)) := by
  intro l
  induction l with
  | nil =>
    intro i0 mx acc
    exact ⟨fun _ => rfl, fun d hd => absurd hd (Nat.not_lt_zero d)⟩
  | cons n rest ih =>
    intro i0 mx acc
    constructor
    · intro hall
      have hn : ¬ mx < key n := not_lt.mpr (hall n (List.mem_cons_self n rest))
      rw [foldMax_cons_true, if_neg hn]
      exact (ih (i0 + 1) mx acc).1 (fun x hx => hall x (List.mem_cons_of_mem n hx))
    · intro d hd hmx hall hstrict
      cases d with
      | zero =>
        have hc : mx < key n := hmx
        rw [foldMax_cons_true, if_pos hc]
        have hrest : ∀ x ∈ rest, key x ≤ key n := by
          intro x hx
          obtain ⟨u, hu⟩ := List.mem_iff_get.mp hx
          have h5 : key (rest.get u) ≤ key n :=
            hall (u.1 + 1) (Nat.succ_lt_succ u.2)
          rw [hu] at h5
          exact h5
        have := (ih (i0 + 1) (key n) (some i0)).1 hrest
        rw [this]
        simp
      | succ d2 =>
        have hd2 : d2 < rest.length := Nat.lt_of_succ_lt_succ hd
        have hmx2 : mx < key (rest.get ⟨d2, hd2⟩) := hmx
        have hall2 : ∀ t (ht : t < rest.length),
            key (rest.get ⟨t, ht⟩) ≤ key (rest.get ⟨d2, hd2⟩) := by
          intro t ht
          exact hall (t + 1) (Nat.succ_lt_succ ht)
        have hstrict2 : ∀ t (ht : t < d2),
            key (rest.get ⟨t, Nat.lt_trans ht hd2⟩) < key (rest.get ⟨d2, hd2⟩) := by
          intro t ht
          exact hstrict (t + 1) (Nat.succ_lt_succ ht)
        have hn : key n < key (rest.get ⟨d2, hd2⟩) :=
          hstrict 0 (Nat.succ_pos d2)
        have harith : i0 + (d2 + 1) = i0 + 1 + d2 := by omega
        by_cases hc : mx < key n
        · rw [foldMax_cons_true, if_pos hc, harith]
          exact (ih (i0 + 1) (key n) (some i0)).2 d2 hd2 hn hall2 hstrict2
        · rw [foldMax_cons_true, if_neg hc, harith]
          exact (ih (i0 + 1) mx acc).2 d2 hd2 hmx2 hall2 hstrict2

theorem exists_first_argmax (key : Node B → ℚ) :
    ∀ (l : List (Node B)), l ≠ [] →
      ∃ d : ℕ, ∃ hd : d < l.length,
        (∀ t (ht : t < l.length), key (l.get ⟨t, ht⟩) ≤ key (l.get ⟨d, hd⟩)) ∧
        (∀ t (ht : t < d), key (l.get ⟨t, Nat.lt_trans ht hd⟩) < key (l.get ⟨d, hd⟩)) := by
  intro l
  induction l with
  | nil => intro h; exact absurd rfl h
  | cons n rest ih =>
    intro _
    cases hr : rest with
    | nil =>
      subst hr
      refine ⟨0, by simp, ?_, ?_⟩
      · intro t ht
        cases t with
        | zero => exact le_refl _
        | succ t2 => exact absurd (Nat.lt_of_succ_lt_succ ht) (Nat.not_lt_zero t2)
      · intro t ht; exact absurd ht (Nat.not_lt_zero t)
    | cons r rs =>
      subst hr
      obtain ⟨d2, hd2, hall2, hstrict2⟩ := ih (by simp)
      by_cases hn : key ((r :: rs).get ⟨d2, hd2⟩) ≤ key n
      · refine ⟨0, by simp, ?_, ?_⟩
        · intro t ht
          cases t with
          | zero => exact le_refl _
          | succ t2 =>
            have ht2 : t2 < (r :: rs).length := Nat.lt_of_succ_lt_succ ht
            exact le_trans (hall2 t2 ht2) hn
        · intro t ht; exact absurd ht (Nat.not_lt_zero t)
      · refine ⟨d2 + 1, Nat.succ_lt_succ hd2, ?_, ?_⟩
        · intro t ht
          cases t with
          | zero => exact le_of_lt (lt_of_not_le hn)
          | succ t2 => exact hall2 t2 (Nat.lt_of_succ_lt_succ ht)
        · intro t ht
          cases t with
          | zero => exact lt_of_not_le hn
          | succ t2 => exact hstrict2 t2 (Nat.lt_of_succ_lt_succ ht)

end Selection

section NodeLemmas

variable {B M : Type}

@[simp] theorem visit_updNode (ctx : Ctx B M) (t : ℚ) (w : Bool) :
    ∀ n : Node B, (updNode ctx t w n).visit_count = n.visit_count + 1
  | .mk _ _ _ _ _ _ => rfl

@[simp] theorem win_updNode (ctx : Ctx B M) (t : ℚ) (w : Bool) :
    ∀ n : Node B, (updNode ctx t w n).win_count = n.win_count + (if w then 1 else 0)
  | .mk _ _ _ _ _ _ => rfl

@[simp] theorem uct_updNode (ctx : Ctx B M) (t : ℚ) (w : Bool) :
    ∀ n : Node B, (updNode ctx t w n).uct_value =
      (n.win_count + (if w then 1 else 0)) / (n.visit_count + 1) +
        ctx.c * ctx.lg t / (n.visit_count + 1)
  | .mk _ _ _ _ _ _ => rfl

@[simp] theorem childs_updNode (ctx : Ctx B M) (t : ℚ) (w : Bool) :
    ∀ n : Node B, (updNode ctx t w n).childs = n.childs
  | .mk _ _ _ _ _ _ => rfl

@[simp] theorem state_updNode (ctx : Ctx B M) (t : ℚ) (w : Bool) :
    ∀ n : Node B, (updNode ctx t w n).state = n.state
  | .mk _ _ _ _ _ _ => rfl

@[simp] theorem rollout_updNode (ctx : Ctx B M) (t : ℚ) (w : Bool) :
    ∀ n : Node B, (updNode ctx t w n).rollout_count = n.rollout_count
  | .mk _ _ _ _ _ _ => rfl

@[simp] theorem visit_withChilds :
    ∀ (n : Node B) (cs : List (Node B)), (n.withChilds cs).visit_count = n.visit_count
  | .mk _ _ _ _ _ _, _ => rfl

@[simp] theorem win_withChilds :
    ∀ (n : Node B) (cs : List (Node B)), (n.withChilds cs).win_count = n.win_count
  | .mk _ _ _ _ _ _, _ => rfl

@[simp] theorem uct_withChilds :
    ∀ (n : Node B) (cs : List (Node B)), (n.withChilds cs).uct_value = n.uct_value
  | .mk _ _ _ _ _ _, _ => rfl

@[simp] theorem childs_withChilds :
    ∀ (n : Node B) (cs : List (Node B)), (n.withChilds cs).childs = cs
  | .mk _ _ _ _ _ _, _ => rfl

@[simp] theorem state_withChilds :
    ∀ (n : Node B) (cs : List (Node B)), (n.withChilds cs).state = n.state
  | .mk _ _ _ _ _ _, _ => rfl

@[simp] theorem rollout_withChilds :
    ∀ (n : Node B) (cs : List (Node B)), (n.withChilds cs).rollout_count = n.rollout_count
  | .mk _ _ _ _ _ _, _ => rfl

@[simp] theorem visit_bumpRollout :
    ∀ n : Node B, n.bumpRollout.visit_count = n.visit_count
  | .mk _ _ _ _ _ _ => rfl

@[simp] theorem win_bumpRollout :
    ∀ n : Node B, n.bumpRollout.win_count = n.win_count
  | .mk _ _ _ _ _ _ => rfl

@[simp] theorem uct_bumpRollout :
    ∀ n : Node B, n.bumpRollout.uct_value = n.uct_value
  | .mk _ _ _ _ _ _ => rfl

@[simp] theorem childs_bumpRollout :
    ∀ n : Node B, n.bumpRollout.childs = n.childs
  | .mk _ _ _ _ _ _ => rfl

@[simp] theorem state_bumpRollout :
    ∀ n : Node B, n.bumpRollout.state = n.state
  | .mk _ _ _ _ _ _ => rfl

@[simp] theorem rollout_bumpRollout :
    ∀ n : Node B, n.bumpRollout.rollout_count = n.rollout_count + 1
  | .mk _ _ _ _ _ _ => rfl

@[simp] theorem visit_newNode (b : B) : (newNode b).visit_count = 0 := rfl

@[simp] theorem win_newNode (b : B) : (newNode b).win_count = 0 := rfl

@[simp] theorem uct_newNode (b : B) : (newNode b).uct_value = 10000 := rfl

@[simp] theorem childs_newNode (b : B) : (newNode b).childs = [] := rfl

@[simp] theorem state_newNode (b : B) : (newNode b).state = b := rfl

@[simp] theorem rollout_newNode (b : B) : (newNode b).rollout_count = 0 := rfl

@[simp] theorem deleteCount_mk (s : B) (v w u : ℚ) (r : ℕ) (cs : List (Node B)) :
    deleteCount (Node.mk s v w u r cs) = deleteCountL cs + 1 := by
  rw [deleteCount]

@[simp] theorem deleteCountL_nil : deleteCountL ([] : List (Node B)) = 0 := by
  rw [deleteCountL]

@[simp] theorem deleteCountL_cons (c : Node B) (cs : List (Node B)) :
    deleteCountL (c :: cs) = deleteCount c + deleteCountL cs := by
  rw [deleteCountL]

theorem deleteCount_childs : ∀ n : Node B, deleteCount n = deleteCountL n.childs + 1
  | .mk _ _ _ _ _ _ => by simp [Node.childs]

@[simp] theorem deleteCount_updNode (ctx : Ctx B M) (t : ℚ) (w : Bool) :
    ∀ n : Node B, deleteCount (updNode ctx t w n) = deleteCount n
  | .mk _ _ _ _ _ _ => by simp [updNode]

@[simp] theorem deleteCount_bumpRollout :
    ∀ n : Node B, deleteCount n.bumpRollout = deleteCount n
  | .mk _ _ _ _ _ _ => by simp [Node.bumpRollout]

@[simp] theorem deleteCount_withChilds :
    ∀ (n : Node B) (cs : List (Node B)), deleteCount (n.withChilds cs) = deleteCountL cs + 1
  | .mk _ _ _ _ _ _, _ => by simp [Node.withChilds]

@[simp] theorem deleteCount_newNode (b : B) : deleteCount (newNode b) = 1 := by
  simp [newNode]

theorem deleteCountL_append (l1 l2 : List (Node B)) :
    deleteCountL (l1 ++ l2) = deleteCountL l1 + deleteCountL l2 := by
  induction l1 with
  | nil => simp
  | cons c cs ih => simp [ih]; omega

theorem deleteCountL_perm {l1 l2 : List (Node B)} (h : l1.Perm l2) :
    deleteCountL l1 = deleteCountL l2 := by
  induction h with
  | nil => rfl
  | cons x _ ih => simp [ih]
  | swap x y l => simp; omega
  | trans _ _ ih1 ih2 => exact ih1.trans ih2

theorem deleteCountL_fresh : ∀ ext : List (Node B),
    (∀ x ∈ ext, ∃ b : B, x = newNode b) → deleteCountL ext = ext.length := by
  intro ext
  induction ext with
  | nil => intro _; simp
  | cons c cs ih =>
    intro h
    obtain ⟨b, hb⟩ := h c (List.mem_cons_self c cs)
    have := ih (fun x hx => h x (List.mem_cons_of_mem c hx))
    simp [hb, this]
    omega

theorem deleteCountL_set : ∀ (cs : List (Node B)) (i : ℕ) (c c2 : Node B),
    cs.get? i = some c →
    deleteCountL (cs.set i c2) + deleteCount c = deleteCountL cs + deleteCount c2 := by
  intro cs
  induction cs with
  | nil => intro i c c2 h; simp at h
  | cons x xs ih =>
    intro i c c2 h
    cases i with
    | zero =>
      simp at h
      subst h
      simp [List.set]
      omega
    | succ j =>
      simp at h
      have := ih j c c2 (by simpa using h)
      simp [List.set]
      omega

theorem childVisitSum_nil : childVisitSum ([] : List (Node B)) = 0 := rfl

@[simp] theorem childVisitSum_cons (c : Node B) (cs : List (Node B)) :
    childVisitSum (c :: cs) = c.visit_count + childVisitSum cs := by
  simp [childVisitSum]

theorem childVisitSum_append (l1 l2 : List (Node B)) :
    childVisitSum (l1 ++ l2) = childVisitSum l1 + childVisitSum l2 := by
  simp [childVisitSum]

theorem childVisitSum_perm {l1 l2 : List (Node B)} (h : l1.Perm l2) :
    childVisitSum l1 = childVisitSum l2 :=
  List.Perm.sum_eq (h.map Node.visit_count)

theorem childVisitSum_fresh : ∀ ext : List (Node B),
    (∀ x ∈ ext, ∃ b : B, x = newNode b) → childVisitSum ext = 0 := by
  intro ext
  induction ext with
  | nil => intro _; rfl
  | cons c cs ih =>
    intro h
    obtain ⟨b, hb⟩ := h c (List.mem_cons_self c cs)
    have := ih (fun x hx => h x (List.mem_cons_of_mem c hx))
    simp [hb, this]

theorem childVisitSum_set : ∀ (cs : List (Node B)) (i : ℕ) (c c2 : Node B),
    cs.get? i = some c →
    childVisitSum (cs.set i c2) + c.visit_count = childVisitSum cs + c2.visit_count := by
  intro cs
  induction cs with
  | nil => intro i c c2 h; simp at h
  | cons x xs ih =>
    intro i c c2 h
    cases i with
    | zero =>
      simp at h
      subst h
      simp [List.set]
      ring
    | succ j =>
      simp at h
      have := ih j c c2 (by simpa using h)
      simp [List.set]
      linarith

end NodeLemmas

section StateLemmas

variable {B M : Type}

theorem simLoop_state (ctx : Ctx B M) :
    ∀ (f : ℕ) (b : B) (count : ℕ) (win : Bool) (st : SState M) (w : Bool) (st2 : SState M),
      simLoop ctx f b count win st = some (w, st2) →
      st2.spc.Perm st.spc ∧ st2.opp.Perm st.opp ∧ st2.total = st.total ∧
        st2.our_turn = st.our_turn ∧ st2.alloc = st.alloc := by
  intro f
  induction f with
  | zero => intro b count win st w st2 h; simp [simLoop] at h
  | succ f ih =>
    intro b count win st w st2 h
    simp only [simLoop] at h
    by_cases hc : count % 2 = 0
    · rw [if_pos hc] at h
      cases hfl : firstLegal ctx.apply (shuffleSpc ctx st).1 b with
      | some a2 =>
        rw [hfl] at h
        have := ih a2 (count + 1) true (shuffleSpc ctx st).2 w st2 h
        refine ⟨?_, ?_, ?_, ?_, ?_⟩
        · exact this.1.trans (by simp [shuffleSpc]; exact pickRanks_perm _ _)
        · exact this.2.1.trans (by simp [shuffleSpc])
        · simpa [shuffleSpc] using this.2.2.1
        · simpa [shuffleSpc] using this.2.2.2.1
        · simpa [shuffleSpc] using this.2.2.2.2
      | none =>
        rw [hfl] at h
        simp at h
        obtain ⟨hw, hst⟩ := h
        subst hst
        refine ⟨?_, ?_, ?_, ?_, ?_⟩ <;> simp [shuffleSpc]
        exact pickRanks_perm _ _
    · rw [if_neg hc] at h
      cases hfl : firstLegal ctx.apply (shuffleOpp ctx st).1 b with
      | some a2 =>
        rw [hfl] at h
        have := ih a2 (count + 1) false (shuffleOpp ctx st).2 w st2 h
        refine ⟨?_, ?_, ?_, ?_, ?_⟩
        · exact this.1.trans (by simp [shuffleOpp])
        · exact this.2.1.trans (by simp [shuffleOpp]; exact pickRanks_perm _ _)
        · simpa [shuffleOpp] using this.2.2.1
        · simpa [shuffleOpp] using this.2.2.2.1
        · simpa [shuffleOpp] using this.2.2.2.2
      | none =>
        rw [hfl] at h
        simp at h
        obtain ⟨hw, hst⟩ := h
        subst hst
        refine ⟨?_, ?_, ?_, ?_, ?_⟩ <;> simp [shuffleOpp]
        exact pickRanks_perm _ _

theorem simulation_state (ctx : Ctx B M) (st : SState M) (b : B) (w : Bool) (st2 : SState M)
    (h : simulation ctx st b = some (w, st2)) :
    st2.spc.Perm st.spc ∧ st2.opp.Perm st.opp ∧ st2.total = st.total + 1 ∧
      st2.our_turn = st.our_turn ∧ st2.alloc = st.alloc := by
  simp only [simulation] at h
  cases hsl : simLoop ctx ctx.sfuel b
      (if st.our_turn then ((0 : ℕ), false) else (1, true)).1
      (if st.our_turn then ((0 : ℕ), false) else (1, true)).2 st with
  | none => rw [hsl] at h; simp at h
  | some pr =>
    rw [hsl] at h
    simp at h
    obtain ⟨hw, hst⟩ := h
    obtain ⟨p1, p2, p3, p4, p5⟩ := simLoop_state ctx ctx.sfuel b _ _ st pr.1 pr.2 (by rw [hsl])
    subst hst
    exact ⟨p1, p2, by simp [p3], p4, p5⟩

end StateLemmas

section InsertLemmas

variable {B M : Type}

theorem selectStep_spec (ctx : Ctx B M) (st : SState M) (cs : List (Node B)) (nlm : ℕ) :
    (selectStep ctx st cs nlm).1.Perm cs ∧
    (selectStep ctx st cs nlm).2.2.spc = st.spc ∧
    (selectStep ctx st cs nlm).2.2.opp = st.opp ∧
    (selectStep ctx st cs nlm).2.2.total = st.total ∧
    (selectStep ctx st cs nlm).2.2.alloc = st.alloc ∧
    (selectStep ctx st cs nlm).2.2.our_turn = st.our_turn := by
  unfold selectStep
  split
  · simp [shuffleChilds]
    exact pickRanks_perm _ _
  · simp

theorem insert_succ_cases (ctx : Ctx B M) (f : ℕ) (root : Node B) (state : B)
    (st : SState M) (r2 : Node B) (w : Bool) (st2 : SState M)
    (ex : List (Node B) × ℕ × ℕ)
    (hex : expandChilds ctx.apply state (if st.our_turn then st.spc else st.opp)
      root.childs 0 st.alloc = ex)
    (h : insert ctx (f + 1) root state st = .ok (r2, w, st2)) :
    (∃ (win : Bool) (st2b : SState M),
      ((root.withChilds ex.1).visit_count = 0 ∨
        ((root.withChilds ex.1).visit_count ≠ 0 ∧ ex.2.1 = 0)) ∧
      simulation ctx { st with alloc := ex.2.2 } (root.withChilds ex.1).state
        = some (win, st2b) ∧
      r2 = updNode ctx st2b.total win (root.withChilds ex.1).bumpRollout ∧
      w = win ∧ st2 = st2b) ∨
    (∃ (cs2 : List (Node B)) (i : ℕ) (st2b : SState M) (child child2 : Node B)
        (win : Bool) (st3 : SState M),
      (root.withChilds ex.1).visit_count ≠ 0 ∧ ex.2.1 ≠ 0 ∧
      selectStep ctx { st with alloc := ex.2.2 } ex.1 ex.2.1 = (cs2, some i, st2b) ∧
      cs2.get? i = some child ∧
      insert ctx f child child.state { st2b with our_turn := ! st2b.our_turn }
        = .ok (child2, win, st3) ∧
      r2 = updNode ctx st3.total win ((root.withChilds ex.1).withChilds (cs2.set i child2)) ∧
      w = win ∧ st2 = st3) := by
  simp only [insert, hex] at h
  split at h
  · rename_i hv0
    cases hsim : simulation ctx { st with alloc := ex.2.2 } (root.withChilds ex.1).state with
    | some pr =>
      obtain ⟨win, st2b⟩ := pr
      rw [hsim] at h
      simp at h
      exact Or.inl ⟨win, st2b, Or.inl hv0, rfl, h.1.symm, h.2.1.symm, h.2.2.symm⟩
    | none => rw [hsim] at h; simp at h
  · rename_i hv0
    split at h
    · rename_i hnlm
      cases hsim : simulation ctx { st with alloc := ex.2.2 } (root.withChilds ex.1).state with
      | some pr =>
        obtain ⟨win, st2b⟩ := pr
        rw [hsim] at h
        simp at h
        exact Or.inl ⟨win, st2b, Or.inr ⟨hv0, hnlm⟩, rfl,
          h.1.symm, h.2.1.symm, h.2.2.symm⟩
      | none => rw [hsim] at h; simp at h
    · rename_i hnlm
      split at h
      · simp at h
      · rename_i cs2 i st2b hsel
        split at h
        · simp at h
        · rename_i child hget
          split at h
          · rename_i child2 win st3 hrec
            simp at h
            exact Or.inr ⟨cs2, i, st2b, child, child2, win, st3, hv0, hnlm, hsel, hget,
              hrec, h.1.symm, h.2.1.symm, h.2.2.symm⟩
          · simp at h

theorem insert_basic (ctx : Ctx B M) :
    ∀ (fuel : ℕ) (root : Node B) (state : B) (st : SState M)
      (r2 : Node B) (w : Bool) (st2 : SState M),
      insert ctx fuel root state st = .ok (r2, w, st2) →
      r2.visit_count = root.visit_count + 1 ∧
      st2.total = st.total + 1 ∧
      st2.spc.Perm st.spc ∧ st2.opp.Perm st.opp ∧
      st2.alloc + deleteCount root = st.alloc + deleteCount r2 := by
  intro fuel
  induction fuel with
  | zero => intro root state st r2 w st2 h; simp [insert] at h
  | succ f ih =>
    intro root state st r2 w st2 h
    obtain ⟨ext, hext1, hext2, hext3, hext4, hext5⟩ :=
      expandChilds_spec ctx.apply state (if st.our_turn then st.spc else st.opp)
        root.childs 0 st.alloc (Nat.zero_le _)
    rcases insert_succ_cases ctx f root state st r2 w st2 _ rfl h with
      ⟨win, st2b, _, hsim, hr2, hw, hst2⟩ |
      ⟨cs2, i, st2b, child, child2, win, st3, _, _, hsel, hget, hrec, hr2, hw, hst2⟩
    · obtain ⟨p1, p2, p3, p4, p5⟩ := simulation_state ctx _ _ _ _ hsim
      simp only [SState.total, SState.spc, SState.opp, SState.alloc] at p1 p2 p3 p5
      refine ⟨?_, ?_, ?_, ?_, ?_⟩
      · rw [hr2]; simp
      · rw [hst2, p3]
      · rw [hst2]; exact p1
      · rw [hst2]; exact p2
      · rw [hst2, hr2, deleteCount_updNode, deleteCount_bumpRollout,
          deleteCount_withChilds, hext1, deleteCountL_append,
          deleteCountL_fresh ext hext2, deleteCount_childs root]
        have ha : st2b.alloc = st.alloc + ext.length := by
          rw [p5]; exact hext5
        omega
    · obtain ⟨ss1, ss2, ss3, ss4, ss5, ss6⟩ := selectStep_spec ctx
        { st with alloc := (expandChilds ctx.apply state
          (if st.our_turn then st.spc else st.opp) root.childs 0 st.alloc).2.2 }
        (expandChilds ctx.apply state (if st.our_turn then st.spc else st.opp)
          root.childs 0 st.alloc).1
        (expandChilds ctx.apply state (if st.our_turn then st.spc else st.opp)
          root.childs 0 st.alloc).2.1
      rw [hsel] at ss1 ss2 ss3 ss4 ss5 ss6
      simp only [SState.total, SState.spc, SState.opp, SState.alloc] at ss2 ss3 ss4 ss5
      obtain ⟨q1, q2, q3, q4, q5⟩ := ih child child.state
        { st2b with our_turn := ! st2b.our_turn } child2 win st3 hrec
      simp only [SState.total, SState.spc, SState.opp, SState.alloc] at q2 q3 q4 q5
      refine ⟨?_, ?_, ?_, ?_, ?_⟩
      · rw [hr2]; simp
      · rw [hst2, q2, ss4]
      · rw [hst2]; exact q3.trans (by rw [ss2])
      · rw [hst2]; exact q4.trans (by rw [ss3])
      · rw [hst2, hr2, deleteCount_updNode, deleteCount_withChilds]
        have hset := deleteCountL_set cs2 i child child2 hget
        have hperm : deleteCountL cs2 = deleteCountL (root.childs ++ ext) := by
          rw [deleteCountL_perm ss1, hext1]
        rw [deleteCountL_append, deleteCountL_fresh ext hext2] at hperm
        have ha : st2b.alloc = st.alloc + ext.length := by
          rw [ss5]; exact hext5
        rw [deleteCount_childs root]
        omega

end InsertLemmas

section Conservation

variable {B M : Type}

theorem TreeInv_newNode {P : Bool → Node B → Prop} (s : Bool) (b : B)
    (hp : P s (newNode b)) : TreeInv P s (newNode b) := by
  refine TreeInv.node s (newNode b) hp ?_
  intro c hc
  simp at hc

theorem consP_newNode (s : Bool) (b : B) : ConsP s (newNode b) := by
  simp [ConsP, childVisitSum]

theorem insert_cons (ctx : Ctx B M) :
    ∀ (fuel : ℕ) (root : Node B) (state : B) (st : SState M)
      (r2 : Node B) (w : Bool) (st2 : SState M) (s : Bool),
      insert ctx fuel root state st = .ok (r2, w, st2) →
      TreeInv ConsP s root → TreeInv ConsP s r2 := by
  intro fuel
  induction fuel with
  | zero => intro root state st r2 w st2 s h; simp [insert] at h
  | succ f ih =>
    intro root state st r2 w st2 s h hT
    obtain ⟨ext, hext1, hext2, hext3, hext4, hext5⟩ :=
      expandChilds_spec ctx.apply state (if st.our_turn then st.spc else st.opp)
        root.childs 0 st.alloc (Nat.zero_le _)
    rcases insert_succ_cases ctx f root state st r2 w st2 _ rfl h with
      ⟨win, st2b, _, hsim, hr2, hw, hst2⟩ |
      ⟨cs2, i, st2b, child, child2, win, st3, _, _, hsel, hget, hrec, hr2, hw, hst2⟩
    · rw [hr2]
      refine TreeInv.node _ _ ?_ ?_
      · show ConsP s (updNode ctx st2b.total win (root.withChilds
          (expandChilds ctx.apply state (if st.our_turn then st.spc else st.opp)
            root.childs 0 st.alloc).1).bumpRollout)
        have hcons := hT.self
        simp only [ConsP] at hcons ⊢
        simp only [visit_updNode, childs_updNode, rollout_updNode, visit_bumpRollout,
          childs_bumpRollout, rollout_bumpRollout, visit_withChilds, childs_withChilds,
          rollout_withChilds, hext1]
        rw [childVisitSum_append, childVisitSum_fresh ext hext2, hcons]
        push_cast
        ring
      · intro c hc
        simp only [childs_updNode, childs_bumpRollout, childs_withChilds, hext1] at hc
        rcases List.mem_append.mp hc with hc | hc
        · exact hT.child c hc
        · obtain ⟨b, hb⟩ := hext2 c hc
          rw [hb]
          exact TreeInv_newNode _ _ (consP_newNode _ _)
    · obtain ⟨ss1, ss2, ss3, ss4, ss5, ss6⟩ := selectStep_spec ctx
        { st with alloc := (expandChilds ctx.apply state
          (if st.our_turn then st.spc else st.opp) root.childs 0 st.alloc).2.2 }
        (expandChilds ctx.apply state (if st.our_turn then st.spc else st.opp)
          root.childs 0 st.alloc).1
        (expandChilds ctx.apply state (if st.our_turn then st.spc else st.opp)
          root.childs 0 st.alloc).2.1
      rw [hsel] at ss1
      rw [hext1] at ss1
      have hchild_mem : child ∈ cs2 := List.get?_mem hget
      have hchild_mem1 : child ∈ root.childs ++ ext := (ss1.mem_iff).mp hchild_mem
      have hchild_inv : TreeInv ConsP (!s) child := by
        rcases List.mem_append.mp hchild_mem1 with hm | hm
        · exact hT.child child hm
        · obtain ⟨b, hb⟩ := hext2 child hm
          rw [hb]
          exact TreeInv_newNode _ _ (consP_newNode _ _)
      have hchild2_inv : TreeInv ConsP (!s) child2 :=
        ih child child.state _ child2 win st3 (!s) hrec hchild_inv
      have hvis2 : child2.visit_count = child.visit_count + 1 :=
        (insert_basic ctx f child child.state _ child2 win st3 hrec).1
      rw [hr2]
      refine TreeInv.node _ _ ?_ ?_
      · have hcons := hT.self
        simp only [ConsP] at hcons ⊢
        simp only [visit_updNode, childs_updNode, rollout_updNode, visit_withChilds,
          childs_withChilds, rollout_withChilds]
        have hset := childVisitSum_set cs2 i child child2 hget
        have hperm : childVisitSum cs2 = childVisitSum (root.childs ++ ext) :=
          childVisitSum_perm ss1
        rw [childVisitSum_append, childVisitSum_fresh ext hext2] at hperm
        rw [hcons]
        have : childVisitSum (cs2.set i child2)
            = childVisitSum root.childs + 1 := by
          rw [hvis2] at hset
          linarith
        rw [this]
        ring
      · intro c hc
        simp only [childs_updNode, childs_withChilds] at hc
        rcases List.mem_or_eq_of_mem_set hc with hc2 | hc2
        · rcases List.mem_append.mp ((ss1.mem_iff).mp hc2) with hm | hm
          · exact hT.child c hm
          · obtain ⟨b, hb⟩ := hext2 c hm
            rw [hb]
            exact TreeInv_newNode _ _ (consP_newNode _ _)
        · rw [hc2]
          exact hchild2_inv

end Conservation

section ScoreInvariant

variable {B M : Type}

theorem scoreP_newNode (ap : M → B → Option B) (spc0 opp0 : List M) (s : Bool) (b : B) :
    ScoreP ap spc0 opp0 s (newNode b) := by
  refine ⟨by simp, by simp, fun _ => by simp, fun h => absurd (by simp) h, Or.inl (by simp)⟩

theorem legalCount_perm (ap : M → B → Option B) {l1 l2 : List M} (h : l1.Perm l2) (b : B) :
    legalCount ap l1 b = legalCount ap l2 b :=
  (h.filter _).length_eq

theorem updNode_uct_nonneg (ctx : Ctx B M) (t : ℚ) (w : Bool) (n : Node B)
    (hwin : 0 ≤ n.win_count) (hvis : 0 ≤ n.visit_count)
    (hc : 0 ≤ ctx.c) (hlg : 0 ≤ ctx.lg t) :
    0 ≤ (updNode ctx t w n).uct_value := by
  rw [uct_updNode]
  have h1 : (0 : ℚ) ≤ n.win_count + (if w then 1 else 0) := by
    have : (0 : ℚ) ≤ (if w then (1 : ℚ) else 0) := by split <;> norm_num
    linarith
  have h2 : (0 : ℚ) ≤ n.visit_count + 1 := by linarith
  exact add_nonneg (div_nonneg h1 h2) (div_nonneg (mul_nonneg hc hlg) h2)

theorem exists_unvisited (cs : List (Node B)) (h : countVisited cs ≠ cs.length) :
    ∃ x ∈ cs, x.visit_count = 0 := by
  induction cs with
  | nil => simp [countVisited] at h
  | cons x xs ih =>
    by_cases hx : x.visit_count = 0
    · exact ⟨x, List.mem_cons_self x xs, hx⟩
    · have hcv : countVisited (x :: xs) = countVisited xs + 1 := by
        simp [countVisited, List.filter_cons, hx]
      have : countVisited xs ≠ xs.length := by
        intro he
        apply h
        simp [hcv, he]
      obtain ⟨y, hy, hvy⟩ := ih this
      exact ⟨y, List.mem_cons_of_mem x hy, hvy⟩

theorem countVisited_le (cs : List (Node B)) : countVisited cs ≤ cs.length :=
  List.length_filter_le _ _

theorem countVisited_lt_of_unvisited :
    ∀ (cs : List (Node B)) (x : Node B), x ∈ cs → x.visit_count = 0 →
      countVisited cs < cs.length := by
  intro cs
  induction cs with
  | nil => intro x hx; simp at hx
  | cons c cst ih =>
    intro x hx hvx
    rcases List.mem_cons.mp hx with h | h
    · have hc : c.visit_count = 0 := by rw [← h]; exact hvx
      have h1 : countVisited (c :: cst) = countVisited cst := by
        simp [countVisited, List.filter_cons, hc]
      rw [h1]
      have := countVisited_le cst
      simp only [List.length_cons]
      omega
    · have := ih x h hvx
      by_cases hc : c.visit_count = 0
      · have h1 : countVisited (c :: cst) = countVisited cst := by
          simp [countVisited, List.filter_cons, hc]
        rw [h1]
        simp only [List.length_cons]
        omega
      · have h1 : countVisited (c :: cst) = countVisited cst + 1 := by
          simp [countVisited, List.filter_cons, hc]
        rw [h1]
        simp only [List.length_cons]
        omega

theorem foldMax_zero_some (key : Node B → ℚ) (p : Node B → Bool) (cs : List (Node B))
    (j : ℕ) (h : foldMax key p cs 0 none (-100) = some j) :
    ∃ hj : j < cs.length, p (cs.get ⟨j, hj⟩) = true := by
  rcases foldMax_sound key p cs 0 none (-100) j h with h2 | ⟨d, hd, hj, hp⟩
  · exact absurd h2 (by simp)
  · have : j = d := by omega
    subst this
    exact ⟨hd, hp⟩

theorem selectStep_ok (ctx : Ctx B M) (st : SState M) (cs : List (Node B)) (nlm : ℕ)
    (hlen : cs.length = nlm) (hnlm : nlm ≠ 0)
    (hinv : ∀ x ∈ cs, (x.visit_count = 0 → x.uct_value = 10000) ∧
      (x.visit_count ≠ 0 → 0 ≤ x.uct_value)) :
    ∃ (cs2 : List (Node B)) (i : ℕ) (st2b : SState M),
      selectStep ctx st cs nlm = (cs2, some i, st2b) ∧ i < cs2.length := by
  by_cases hcv : countVisited cs = nlm
  · have hne : cs ≠ [] := by
      intro he
      rw [he] at hlen
      exact hnlm (by simpa using hlen.symm)
    obtain ⟨x, hx⟩ := List.exists_mem_of_ne_nil cs hne
    obtain ⟨u, hu⟩ := List.mem_iff_get.mp hx
    have hxu : (-100 : ℚ) < (cs.get u).uct_value := by
      rcases Classical.em ((cs.get u).visit_count = 0) with hv | hv
      · rw [(hinv _ (List.get_mem cs u.1 u.2)).1 hv]; norm_num
      · have := (hinv _ (List.get_mem cs u.1 u.2)).2 hv
        linarith
    have hsome : (selVisited cs).isSome := by
      apply foldMax_isSome
      exact ⟨u.1, u.2, rfl, hxu⟩
    obtain ⟨i, hi⟩ := Option.isSome_iff_exists.mp hsome
    obtain ⟨hb, _⟩ := foldMax_zero_some _ _ _ _ hi
    exact ⟨cs, i, st, by simp [selectStep, hcv, hi], hb⟩
  · have hlt : countVisited cs < cs.length := by
      have := countVisited_le cs
      omega
    obtain ⟨x, hx, hvx⟩ := exists_unvisited cs (by omega)
    have hcs2 : (pickRanks (ctx.oracle st.ridx) cs).Perm cs := pickRanks_perm _ _
    have hx2 : x ∈ pickRanks (ctx.oracle st.ridx) cs := hcs2.mem_iff.mpr hx
    obtain ⟨u, hu⟩ := List.mem_iff_get.mp hx2
    have hxu : (-100 : ℚ) < ((pickRanks (ctx.oracle st.ridx) cs).get u).uct_value := by
      rw [hu, (hinv x hx).1 hvx]
      norm_num
    have hsome : (selUnvisited (pickRanks (ctx.oracle st.ridx) cs)).isSome := by
      apply foldMax_isSome
      refine ⟨u.1, u.2, ?_, hxu⟩
      show decide (((pickRanks (ctx.oracle st.ridx) cs).get u).visit_count = 0) = true
      rw [hu]
      simp [hvx]
    obtain ⟨i, hi⟩ := Option.isSome_iff_exists.mp hsome
    obtain ⟨hb, _⟩ := foldMax_zero_some _ _ _ _ hi
    refine ⟨pickRanks (ctx.oracle st.ridx) cs, i, { st with ridx := st.ridx + 1 }, ?_, hb⟩
    simp [selectStep, hcv, shuffleChilds, hi]

end ScoreInvariant

section ScorePreservation

variable {B M : Type}

theorem insert_score (ctx : Ctx B M) (spc0 opp0 : List M)
    (hc : 0 ≤ ctx.c) (hlg : ∀ q : ℚ, 1 ≤ q → 0 ≤ ctx.lg q) :
    ∀ (fuel : ℕ) (root : Node B) (state : B) (st : SState M),
      SInv spc0 opp0 st → state = root.state →
      TreeInv (ScoreP ctx.apply spc0 opp0) st.our_turn root →
      insert ctx fuel root state st ≠ .error .oob ∧
      ∀ (r2 : Node B) (w : Bool) (st2 : SState M),
        insert ctx fuel root state st = .ok (r2, w, st2) →
        TreeInv (ScoreP ctx.apply spc0 opp0) st.our_turn r2 ∧ SInv spc0 opp0 st2 := by
  intro fuel
  induction fuel with
  | zero =>
    intro root state st hS hst hT
    exact ⟨by simp [insert], fun r2 w st2 h => by simp [insert] at h⟩
  | succ f ih =>
    intro root state st hS hst hT
    obtain ⟨hv0, hw0, hsent, hpos, hlen0⟩ := hT.self
    obtain ⟨ext, hext1, hext2, hext3, hext4, hext5⟩ :=
      expandChilds_spec ctx.apply state (if st.our_turn then st.spc else st.opp)
        root.childs 0 st.alloc (Nat.zero_le _)
    have hmoves_perm : (if st.our_turn then st.spc else st.opp).Perm
        (if st.our_turn then spc0 else opp0) := by
      cases h2 : st.our_turn
      · simpa using hS.2.1
      · simpa using hS.1
    have hLm : legalCount ctx.apply (if st.our_turn then st.spc else st.opp) state
        = legalCount ctx.apply (if st.our_turn then spc0 else opp0) root.state := by
      rw [← hst]
      exact legalCount_perm ctx.apply hmoves_perm state
    simp only [insert]
    set ex2 := expandChilds ctx.apply state (if st.our_turn then st.spc else st.opp)
      root.childs 0 st.alloc with hexdef
    have hnlm_eq : ex2.2.1
        = legalCount ctx.apply (if st.our_turn then spc0 else opp0) root.state := by
      rw [hext3, ← hLm]
      omega
    have hcs1len : ex2.1.length
        = legalCount ctx.apply (if st.our_turn then spc0 else opp0) root.state := by
      rw [hext4, hLm]
      rcases hlen0 with h0 | h0 <;> rw [h0] <;> simp
    have hmem_inv : ∀ x ∈ ex2.1,
        ScoreP ctx.apply spc0 opp0 (!st.our_turn) x ∧
        TreeInv (ScoreP ctx.apply spc0 opp0) (!st.our_turn) x := by
      intro x hx
      rw [hext1] at hx
      rcases List.mem_append.mp hx with hm | hm
      · exact ⟨(hT.child x hm).self, hT.child x hm⟩
      · obtain ⟨b, hb⟩ := hext2 x hm
        rw [hb]
        exact ⟨scoreP_newNode _ _ _ _ _, TreeInv_newNode _ _ (scoreP_newNode _ _ _ _ _)⟩
    have hSimCase : ∀ (st2b : SState M) (win : Bool),
        simulation ctx { st with alloc := ex2.2.2 } (root.withChilds ex2.1).state
          = some (win, st2b) →
        TreeInv (ScoreP ctx.apply spc0 opp0) st.our_turn
          (updNode ctx st2b.total win (root.withChilds ex2.1).bumpRollout) ∧
        SInv spc0 opp0 st2b := by
      intro st2b win hsim
      obtain ⟨p1, p2, p3, p4, p5⟩ := simulation_state ctx _ _ _ _ hsim
      simp only [SState.total, SState.spc, SState.opp, SState.alloc] at p1 p2 p3 p5
      have htot : 1 ≤ st2b.total := by
        rw [p3]
        have := hS.2.2
        linarith
      constructor
      · refine TreeInv.node _ _ ?_ ?_
        · refine ⟨?_, ?_, ?_, ?_, ?_⟩
          · simp; linarith
          · simp
            have : (0 : ℚ) ≤ (if win then (1 : ℚ) else 0) := by split <;> norm_num
            linarith
          · intro hcontra
            simp at hcontra
            linarith
          · intro _
            exact updNode_uct_nonneg ctx st2b.total win _ (by simpa using hw0)
              (by simpa using hv0) hc (hlg st2b.total htot)
          · right
            simp [hcs1len]
        · intro c hcmem
          simp only [childs_updNode, childs_bumpRollout, childs_withChilds] at hcmem
          exact (hmem_inv c hcmem).2
      · refine ⟨p1.trans hS.1, p2.trans hS.2.1, ?_⟩
        rw [p3]
        have := hS.2.2
        linarith
    split
    · rename_i hvz
      cases hsim : simulation ctx { st with alloc := ex2.2.2 }
          (root.withChilds ex2.1).state with
      | none => exact ⟨by simp, fun r2 w st2 h => by simp at h⟩
      | some pr =>
        obtain ⟨win, st2b⟩ := pr
        refine ⟨by simp, ?_⟩
        intro r2 w st2 h
        simp at h
        obtain ⟨h1, _, h3⟩ := h
        rw [← h1, ← h3]
        exact hSimCase st2b win hsim
    · rename_i hvz
      split
      · rename_i hnz
        cases hsim : simulation ctx { st with alloc := ex2.2.2 }
            (root.withChilds ex2.1).state with
        | none => exact ⟨by simp, fun r2 w st2 h => by simp at h⟩
        | some pr =>
          obtain ⟨win, st2b⟩ := pr
          refine ⟨by simp, ?_⟩
          intro r2 w st2 h
          simp at h
          obtain ⟨h1, _, h3⟩ := h
          rw [← h1, ← h3]
          exact hSimCase st2b win hsim
      · rename_i hnz
        obtain ⟨cs2, i, st2b, hsel, hibound⟩ :=
          selectStep_ok ctx { st with alloc := ex2.2.2 } ex2.1 ex2.2.1
            (hcs1len.trans hnlm_eq.symm) hnz
            (fun x hx => ⟨(hmem_inv x hx).1.2.2.1, (hmem_inv x hx).1.2.2.2.1⟩)
        obtain ⟨ss1, ss2, ss3, ss4, ss5, ss6⟩ := selectStep_spec ctx
          { st with alloc := ex2.2.2 } ex2.1 ex2.2.1
        rw [hsel] at ss1 ss2 ss3 ss4 ss5 ss6
        simp only [SState.total, SState.spc, SState.opp, SState.alloc,
          SState.our_turn] at ss2 ss3 ss4 ss5 ss6
        have hgetv : cs2.get? i = some (cs2.get ⟨i, hibound⟩) := List.get?_eq_get hibound
        have hchild_mem : cs2.get ⟨i, hibound⟩ ∈ ex2.1 :=
          (ss1.mem_iff).mp (List.get_mem cs2 i hibound)
        have hT2 : TreeInv (ScoreP ctx.apply spc0 opp0) (!st.our_turn)
            (cs2.get ⟨i, hibound⟩) := (hmem_inv _ hchild_mem).2
        have hS2 : SInv spc0 opp0 { st2b with our_turn := ! st2b.our_turn } := by
          refine ⟨?_, ?_, ?_⟩
          · simp only [SState.spc]
            rw [ss2]
            exact hS.1
          · simp only [SState.opp]
            rw [ss3]
            exact hS.2.1
          · simp only [SState.total]
            rw [ss4]
            exact hS.2.2
        have hsideEq : ({ st2b with our_turn := ! st2b.our_turn } : SState M).our_turn
            = !st.our_turn := by
          simp only [SState.our_turn]
          rw [ss6]
        obtain ⟨hnoob, hok⟩ := ih (cs2.get ⟨i, hibound⟩) (cs2.get ⟨i, hibound⟩).state
          { st2b with our_turn := ! st2b.our_turn } hS2 rfl (by rw [hsideEq]; exact hT2)
        split
        · rename_i heq
          rw [hsel] at heq
          simp at heq
        · rename_i cs2x i2 st2bx heq
          rw [hsel] at heq
          have hcs2x : cs2 = cs2x := by
            have := congrArg Prod.fst heq
            simpa using this
          have hi2 : i = i2 := by
            have := congrArg (fun p => p.2.1) heq
            simpa using this
          have hst2bx : st2b = st2bx := by
            have := congrArg (fun p => p.2.2) heq
            simpa using this
          subst hcs2x hi2 hst2bx
          split
          · rename_i hgnone
            rw [hgnone] at hgetv
            simp at hgetv
          · rename_i child hgsome
            have hchild : child = cs2.get ⟨i, hibound⟩ := by
              rw [hgsome] at hgetv
              exact Option.some.inj hgetv
            subst hchild
            cases hrec : insert ctx f (cs2.get ⟨i, hibound⟩) (cs2.get ⟨i, hibound⟩).state
                { st2b with our_turn := ! st2b.our_turn } with
            | error e =>
              refine ⟨?_, fun r2 w st2 h => by simp at h⟩
              intro hbad
              simp at hbad
              rw [hbad] at hrec
              exact hnoob hrec
            | ok trip =>
              obtain ⟨child2, win, st3⟩ := trip
              obtain ⟨hTc2, hS3⟩ := hok child2 win st3 hrec
              obtain ⟨q1, q2, q3, q4, q5⟩ := insert_basic ctx f _ _ _ _ _ _ hrec
              simp only [SState.total] at q2
              refine ⟨by simp, ?_⟩
              intro r2 w st2 h
              simp at h
              obtain ⟨h1, _, h3⟩ := h
              rw [← h1, ← h3]
              have htot3 : 1 ≤ st3.total := by
                rw [q2, ss4]
                have := hS.2.2
                linarith
              refine ⟨?_, hS3⟩
              refine TreeInv.node _ _ ?_ ?_
              · refine ⟨?_, ?_, ?_, ?_, ?_⟩
                · simp; linarith
                · simp
                  have : (0 : ℚ) ≤ (if win then (1 : ℚ) else 0) := by split <;> norm_num
                  linarith
                · intro hcontra
                  simp at hcontra
                  linarith
                · intro _
                  exact updNode_uct_nonneg ctx st3.total win _ (by simpa using hw0)
                    (by simpa using hv0) hc (hlg st3.total htot3)
                · right
                  simp only [childs_updNode, childs_withChilds, state_updNode,
                    state_withChilds, List.length_set]
                  rw [ss1.length_eq]
                  exact hcs1len
              · intro c hcmem
                simp only [childs_updNode, childs_withChilds] at hcmem
                rcases List.mem_or_eq_of_mem_set hcmem with hc2 | hc2
                · exact (hmem_inv c ((ss1.mem_iff).mp hc2)).2
                · rw [hc2, ← hsideEq]
                  exact hTc2

end ScorePreservation

section RunCycles

variable {B M : Type}

theorem insert_state (ctx : Ctx B M) (fuel : ℕ) (root : Node B) (state : B)
    (st : SState M) (r2 : Node B) (w : Bool) (st2 : SState M)
    (h : insert ctx fuel root state st = .ok (r2, w, st2)) :
    r2.state = root.state := by
  cases fuel with
  | zero => simp [insert] at h
  | succ f =>
    rcases insert_succ_cases ctx f root state st r2 w st2 _ rfl h with
      ⟨win, st2b, _, _, hr2, _, _⟩ | ⟨cs2, i, st2b, child, child2, win, st3, _, _, _, _, _, hr2, _, _⟩
    · rw [hr2]; simp
    · rw [hr2]; simp

theorem runCycles_cons (ctx : Ctx B M) (fuel : ℕ) :
    ∀ (budget : ℕ) (root : Node B) (state : B) (st : SState M)
      (r2 : Node B) (st2 : SState M) (s : Bool),
      runCycles ctx fuel budget root state st = .ok (r2, st2) →
      TreeInv ConsP s root → TreeInv ConsP s r2 := by
  intro budget
  induction budget with
  | zero =>
    intro root state st r2 st2 s h hT
    simp [runCycles] at h
    rw [← h.1]
    exact hT
  | succ b ih =>
    intro root state st r2 st2 s h hT
    simp only [runCycles] at h
    cases hins : insert ctx fuel root state { st with our_turn := true } with
    | error e => rw [hins] at h; simp at h
    | ok trip =>
      obtain ⟨rootb, w, stb⟩ := trip
      rw [hins] at h
      exact ih rootb state stb r2 st2 s h (insert_cons ctx fuel root state _ rootb w stb s hins hT)

theorem runCycles_basic (ctx : Ctx B M) (fuel : ℕ) :
    ∀ (budget : ℕ) (root : Node B) (state : B) (st : SState M)
      (r2 : Node B) (st2 : SState M),
      runCycles ctx fuel budget root state st = .ok (r2, st2) →
      st2.alloc + deleteCount root = st.alloc + deleteCount r2 ∧
      st2.spc.Perm st.spc := by
  intro budget
  induction budget with
  | zero =>
    intro root state st r2 st2 h
    simp [runCycles] at h
    rw [← h.1, ← h.2]
    exact ⟨rfl, List.Perm.refl _⟩
  | succ b ih =>
    intro root state st r2 st2 h
    simp only [runCycles] at h
    cases hins : insert ctx fuel root state { st with our_turn := true } with
    | error e => rw [hins] at h; simp at h
    | ok trip =>
      obtain ⟨rootb, w, stb⟩ := trip
      rw [hins] at h
      obtain ⟨q1, q2, q3, q4, q5⟩ := insert_basic ctx fuel root state _ rootb w stb hins
      obtain ⟨r1, r2p⟩ := ih rootb state stb r2 st2 h
      simp only [SState.alloc, SState.spc] at q5 q3
      constructor
      · omega
      · exact r2p.trans q3

theorem runCycles_score (ctx : Ctx B M) (spc0 opp0 : List M)
    (hc : 0 ≤ ctx.c) (hlg : ∀ q : ℚ, 1 ≤ q → 0 ≤ ctx.lg q) (fuel : ℕ) :
    ∀ (budget : ℕ) (root : Node B) (state : B) (st : SState M),
      SInv spc0 opp0 st → state = root.state →
      TreeInv (ScoreP ctx.apply spc0 opp0) true root →
      runCycles ctx fuel budget root state st ≠ .error .oob ∧
      ∀ (r2 : Node B) (st2 : SState M),
        runCycles ctx fuel budget root state st = .ok (r2, st2) →
        TreeInv (ScoreP ctx.apply spc0 opp0) true r2 ∧ SInv spc0 opp0 st2 := by
  intro budget
  induction budget with
  | zero =>
    intro root state st hS hst hT
    refine ⟨by simp [runCycles], ?_⟩
    intro r2 st2 h
    simp [runCycles] at h
    rw [← h.1, ← h.2]
    exact ⟨hT, hS⟩
  | succ b ih =>
    intro root state st hS hst hT
    have hS1 : SInv spc0 opp0 { st with our_turn := true } := by
      exact ⟨by simpa using hS.1, by simpa using hS.2.1, by simpa using hS.2.2⟩
    have hside : ({ st with our_turn := true } : SState M).our_turn = true := rfl
    obtain ⟨hnoob, hok⟩ := insert_score ctx spc0 opp0 hc hlg fuel root state
      { st with our_turn := true } hS1 hst (by rw [hside]; exact hT)
    simp only [runCycles]
    cases hins : insert ctx fuel root state { st with our_turn := true } with
    | error e =>
      refine ⟨?_, fun r2 st2 h => by simp at h⟩
      intro hbad
      simp at hbad
      rw [hbad] at hins
      exact hnoob hins
    | ok trip =>
      obtain ⟨rootb, w, stb⟩ := trip
      obtain ⟨hTb, hSb⟩ := hok rootb w stb hins
      have hstb : state = rootb.state := by
        rw [insert_state ctx fuel root state _ rootb w stb hins]
        exact hst
      exact ih rootb state stb hSb hstb (by rwa [hside] at hTb)

end RunCycles

section ExtractionLemmas

variable {B M : Type}

theorem childVisitSum_nonneg (cs : List (Node B)) (h : ∀ x ∈ cs, 0 ≤ x.visit_count) :
    0 ≤ childVisitSum cs := by
  induction cs with
  | nil => simp [childVisitSum]
  | cons c cs ih =>
    simp only [childVisitSum_cons]
    have h1 := h c (List.mem_cons_self c cs)
    have h2 := ih (fun x hx => h x (List.mem_cons_of_mem c hx))
    linarith

theorem TreeInv_cons_visit_nonneg {s : Bool} {n : Node B}
    (h : TreeInv (ConsP (B := B)) s n) : 0 ≤ n.visit_count := by
  induction h with
  | node s n hp hc ih =>
    simp only [ConsP] at hp
    rw [hp]
    have h1 : 0 ≤ childVisitSum n.childs := childVisitSum_nonneg _ (fun x hx => ih x hx)
    have h2 : (0 : ℚ) ≤ (n.rollout_count : ℚ) := Nat.cast_nonneg _
    linarith

theorem findMove_sound [DecidableEq B] (ap : M → B → Option B) :
    ∀ (l : List M) (state target : B) (m : M),
      findMove ap l state target = some m → ap m state = some target := by
  intro l
  induction l with
  | nil => intro state target m h; simp [findMove] at h
  | cons x xs ih =>
    intro state target m h
    cases hax : ap x state with
    | some after =>
      simp only [findMove, hax] at h
      by_cases he : after = target
      · rw [if_pos he] at h
        have hm : x = m := Option.some.inj h
        rw [← hm, hax, he]
      · rw [if_neg he] at h
        exact ih _ _ _ h
    | none =>
      simp only [findMove, hax] at h
      exact ih _ _ _ h

theorem findMove_isSome [DecidableEq B] (ap : M → B → Option B) :
    ∀ (l : List M) (state target : B),
      (∃ m ∈ l, ap m state = some target) → (findMove ap l state target).isSome := by
  intro l
  induction l with
  | nil =>
    intro state target ⟨m, hm, _⟩
    simp at hm
  | cons x xs ih =>
    intro state target ⟨m, hm, hap⟩
    cases hax : ap x state with
    | some after =>
      simp only [findMove, hax]
      by_cases he : after = target
      · rw [if_pos he]; rfl
      · rw [if_neg he]
        apply ih
        rcases List.mem_cons.mp hm with hm2 | hm2
        · rw [hm2] at hap
          rw [hap] at hax
          exact absurd (Option.some.inj hax).symm he
        · exact ⟨m, hm2, hap⟩
    | none =>
      simp only [findMove, hax]
      apply ih
      rcases List.mem_cons.mp hm with hm2 | hm2
      · rw [hm2] at hap
        rw [hap] at hax
        simp at hax
      · exact ⟨m, hm2, hap⟩

theorem argmaxVisit_first (cs : List (Node B)) (hne : cs ≠ [])
    (hnn : ∀ x ∈ cs, 0 ≤ x.visit_count) :
    ∃ i, argmaxVisit cs = some i ∧ IsFirstArgmaxVisit cs i := by
  obtain ⟨d, hd, hall, hstrict⟩ := exists_first_argmax Node.visit_count cs hne
  have hmx : (-100 : ℚ) < (cs.get ⟨d, hd⟩).visit_count := by
    have := hnn _ (List.get_mem cs d hd)
    linarith
  have hch := (foldMax_char Node.visit_count cs 0 (-100) none).2 d hd hmx hall hstrict
  refine ⟨d, ?_, hd, hall, hstrict⟩
  simpa [argmaxVisit] using hch

theorem decisionExtract_nil [DecidableEq B] (ap : M → B → Option B) (spc : List M)
    (state : B) (root : Node B) (h : root.childs = []) :
    decisionExtract ap spc state root = (none, 0) := by
  simp [decisionExtract, h]

theorem decisionExtract_cons [DecidableEq B] (ap : M → B → Option B) (spc : List M)
    (state : B) (root : Node B) (i : ℕ) (best : Node B)
    (hne : root.childs.length ≠ 0)
    (hmax : argmaxVisit root.childs = some i)
    (hbest : root.childs.get? i = some best) :
    decisionExtract ap spc state root
      = (findMove ap spc state best.state, deleteCount root) := by
  simp only [List.get?_eq_getElem?] at hbest
  simp [decisionExtract, hne, hmax, hbest]

theorem takeAction_ok [DecidableEq B] (ctx : Ctx B M) (fuel budget : ℕ) (state : B)
    (spc opp : List M) (root2 : Node B) (st2 : SState M)
    (h : runCycles ctx fuel budget (newNode state) state
      { spc := spc, opp := opp, our_turn := true, total := 0, ridx := 0, alloc := 1 }
      = .ok (root2, st2)) :
    takeAction ctx fuel budget state spc opp = .ok
      { act := (decisionExtract ctx.apply st2.spc state root2).1,
        freed := (decisionExtract ctx.apply st2.spc state root2).2,
        tree := root2,
        stF := { st2 with total := 0 } } := by
  simp only [takeAction]
  rw [h]

theorem takeAction_err [DecidableEq B] (ctx : Ctx B M) (fuel budget : ℕ) (state : B)
    (spc opp : List M) (e : Err)
    (h : runCycles ctx fuel budget (newNode state) state
      { spc := spc, opp := opp, our_turn := true, total := 0, ridx := 0, alloc := 1 }
      = .error e) :
    takeAction ctx fuel budget state spc opp = .error e := by
  simp only [takeAction]
  rw [h]

end ExtractionLemmas

section RolloutSpec

variable {B M : Type}

theorem simLoop_spec (ctx : Ctx B M) :
    ∀ (f : ℕ) (b : B) (count : ℕ) (st : SState M),
      simLoop ctx f b count (decide (count % 2 = 1)) st
        = specRollout ctx f b (decide (count % 2 = 0)) st := by
  intro f
  induction f with
  | zero => intro b count st; simp [simLoop, specRollout]
  | succ f ih =>
    intro b count st
    by_cases hc : count % 2 = 0
    · have h1 : decide (count % 2 = 0) = true := by simp [hc]
      have h0 : decide (count % 2 = 1) = false := by
        have : count % 2 ≠ 1 := by omega
        simp [this]
      have he : (count + 1) % 2 = 1 := by omega
      have hno : (count + 1) % 2 ≠ 0 := by omega
      simp only [simLoop, specRollout, if_pos hc, h1, if_true, h0]
      cases hfl : firstLegal ctx.apply (shuffleSpc ctx st).1 b with
      | some a2 =>
        have hih := ih a2 (count + 1) (shuffleSpc ctx st).2
        rw [show decide ((count + 1) % 2 = 1) = true from by simp [he]] at hih
        rw [show decide ((count + 1) % 2 = 0) = false from by simp [hno]] at hih
        simpa using hih
      | none => rfl
    · have h1 : decide (count % 2 = 0) = false := by simp [hc]
      have hone : count % 2 = 1 := by omega
      have h0 : decide (count % 2 = 1) = true := by simp [hone]
      have he : (count + 1) % 2 = 0 := by omega
      have hno : (count + 1) % 2 ≠ 1 := by omega
      simp only [simLoop, specRollout, if_neg hc, h1, if_false, h0,
        if_neg Bool.false_ne_true]
      cases hfl : firstLegal ctx.apply (shuffleOpp ctx st).1 b with
      | some a2 =>
        have hih := ih a2 (count + 1) (shuffleOpp ctx st).2
        rw [show decide ((count + 1) % 2 = 1) = false from by simp [hno]] at hih
        rw [show decide ((count + 1) % 2 = 0) = true from by simp [he]] at hih
        simpa using hih
      | none => rfl

theorem updNode_formula (ctx : Ctx B M) (t : ℚ) (w : Bool) :
    ∀ n : Node B, (updNode ctx t w n).uct_value
      = (updNode ctx t w n).win_count / (updNode ctx t w n).visit_count
        + ctx.c * ctx.lg t / (updNode ctx t w n).visit_count
  | .mk _ _ _ _ _ _ => rfl

end RolloutSpec

section Claims

variable {B M : Type}

/-- C1 counterexample: the claimed selection score
w/n + c * sqrt(ln N / n) differs from the score the code recomputes
(agent.h line 316), w/n + c * ln N / n, already at the concrete node
statistics w = 0, n = 1, N = exp 4, c = 1: the code value is 4, the
claimed value is sqrt 4 = 2. -/
theorem claimC1_counterexample :
    uctFromCode 0 1 (Real.exp 4) 1 ≠ uctClaimed 0 1 (Real.exp 4) 1 := by
  have hcode : uctFromCode 0 1 (Real.exp 4) 1 = 4 := by
    simp [uctFromCode, Real.log_exp]
  have hsqrt : Real.sqrt 4 = 2 := by
    rw [show (4 : ℝ) = 2 ^ 2 by norm_num, Real.sqrt_sq (by norm_num : (0 : ℝ) ≤ 2)]
  have hclaim : uctClaimed 0 1 (Real.exp 4) 1 = 2 := by
    simp [uctClaimed, Real.log_exp, hsqrt]
  rw [hcode, hclaim]
  norm_num

/-- C1 amended: every node updated in backpropagation (the root of each
insert call on the descent path) carries, after the update, the score
win_count / visit_count + c * lg(N) / visit_count, with N the global
playout counter after the completed simulation — the formula of agent.h
line 316, with no square root. -/
theorem claimC1_amended (ctx : Ctx B M) (fuel : ℕ) (root : Node B) (state : B)
    (st : SState M) (r2 : Node B) (w : Bool) (st2 : SState M)
    (h : insert ctx fuel root state st = .ok (r2, w, st2)) :
    r2.uct_value = r2.win_count / r2.visit_count
      + ctx.c * ctx.lg st2.total / r2.visit_count := by
  cases fuel with
  | zero => simp [insert] at h
  | succ f =>
    rcases insert_succ_cases ctx f root state st r2 w st2 _ rfl h with
      ⟨win, st2b, _, _, hr2, _, hst2⟩ |
      ⟨cs2, i, st2b, child, child2, win, st3, _, _, _, _, _, hr2, _, hst2⟩
    · rw [hr2, hst2]
      exact updNode_formula ctx st2b.total win _
    · rw [hr2, hst2]
      exact updNode_formula ctx st3.total win _

/-- C1 witness: a concrete one-cycle run of the trivial game, with the
amended formula checked on its root. -/
theorem claimC1_witness :
    (Node.mk (0 : ℕ) 1 0 0 1 []).uct_value
      = (Node.mk (0 : ℕ) 1 0 0 1 []).win_count / (Node.mk (0 : ℕ) 1 0 0 1 []).visit_count
        + ctxN.c * ctxN.lg
            ({ spc := [0], opp := [0], our_turn := true, total := 1, ridx := 1,
               alloc := 1 } : SState ℕ).total
          / (Node.mk (0 : ℕ) 1 0 0 1 []).visit_count :=
  claimC1_amended ctxN 3 (newNode 0) 0 stN (Node.mk 0 1 0 0 1 []) false
    { spc := [0], opp := [0], our_turn := true, total := 1, ridx := 1, alloc := 1 }
    (by norm_num [insert, expandChilds, simulation, simLoop, shuffleSpc, shuffleOpp,
      pickRanks, firstLegal, updNode, newNode, Node.withChilds, Node.bumpRollout,
      Node.visit_count, Node.state, Node.childs, ctxN, stN])

/-- C3: the rollout implemented by simulation() (agent.h lines 174-224)
behaves exactly as the specification words it: sides alternate strictly,
each side plays the first legal candidate of its shuffled list, the win
flag reports whether the side that made the last successful move is the
searching agent, and a first side to move without a legal move loses
(win = false on the agent's turn, win = true on the opponent's turn) —
all of which is the definition of specRollout; simulation additionally
increments the playout counter. -/
theorem claimC3_rollout (ctx : Ctx B M) (st : SState M) (b : B) :
    simulation ctx st b = (specRollout ctx ctx.sfuel b st.our_turn st).map
      (fun pr => (pr.1, { pr.2 with total := pr.2.total + 1 })) := by
  cases ht : st.our_turn with
  | true =>
    have hsl := simLoop_spec ctx ctx.sfuel b 0 st
    rw [show decide (0 % 2 = 1) = false from by simp] at hsl
    rw [show decide (0 % 2 = 0) = true from by simp] at hsl
    simp only [simulation, ht, if_true]
    rw [hsl]
    cases hsp : specRollout ctx ctx.sfuel b true st with
    | none => simp
    | some pr => simp
  | false =>
    have hsl := simLoop_spec ctx ctx.sfuel b 1 st
    rw [show decide (1 % 2 = 1) = true from by simp] at hsl
    rw [show decide (1 % 2 = 0) = false from by simp] at hsl
    simp only [simulation, ht, Bool.false_eq_true, if_false]
    rw [hsl]
    cases hsp : specRollout ctx ctx.sfuel b false st with
    | none => simp
    | some pr => simp

/-- C2 counterexample: in the game with no legal move, two completed
cycles both use the root directly as a rollout source (first visit, then
the terminal re-visit of agent.h line 276), so the root ends with
visit_count 2, no children, and two rollouts; the claimed equation
visit_count = children sum + (1 if ever a rollout source) gives 1 ≠ 2. -/
theorem claimC2_counterexample :
    runCycles ctxN 5 2 (newNode (0 : ℕ)) 0 stN
      = .ok (Node.mk 0 2 0 0 2 [],
        { spc := [0], opp := [0], our_turn := true, total := 2, ridx := 2, alloc := 1 }) ∧
    ¬ claimC2stmt (Node.mk (0 : ℕ) 2 0 0 2 []) := by
  constructor
  · norm_num [runCycles, insert, expandChilds, simulation, simLoop, shuffleSpc,
      shuffleOpp, pickRanks, firstLegal, updNode, newNode, Node.withChilds,
      Node.bumpRollout, Node.visit_count, Node.state, Node.childs, ctxN, stN]
  · norm_num [claimC2stmt, childVisitSum, Node.visit_count, Node.childs,
      Node.rollout_count]

/-- C2 amended: after any number of completed cycles within one
decision, every node of the search tree satisfies visit_count = sum of
the children visit_count plus the number of times the node was used
directly as a rollout source (not merely plus one). -/
theorem claimC2_amended (ctx : Ctx B M) (fuel budget : ℕ) (state : B) (st : SState M)
    (r2 : Node B) (st2 : SState M)
    (h : runCycles ctx fuel budget (newNode state) state st = .ok (r2, st2)) :
    TreeInv ConsP true r2 :=
  runCycles_cons ctx fuel budget (newNode state) state st r2 st2 true h
    (TreeInv_newNode true state (consP_newNode true state))

/-- C2 witness: the amended conservation equation checked on the
concrete two-cycle run of the no-move game. -/
theorem claimC2_witness : TreeInv ConsP true (Node.mk (0 : ℕ) 2 0 0 2 []) :=
  claimC2_amended ctxN 5 2 0 stN (Node.mk 0 2 0 0 2 [])
    { spc := [0], opp := [0], our_turn := true, total := 2, ridx := 2, alloc := 1 }
    (by norm_num [runCycles, insert, expandChilds, simulation, simLoop, shuffleSpc,
      shuffleOpp, pickRanks, firstLegal, updNode, newNode, Node.withChilds,
      Node.bumpRollout, Node.visit_count, Node.state, Node.childs, ctxN, stN])

/-- C4 counterexample: with the playout budget N entirely missing from
the configuration, construction succeeds (only name and role are checked
in player::player, agent.h lines 78-103); the failure is deferred to the
first take_action, where property("N") throws (agent.h line 107) before
any parse is attempted — shown with the all-accepting parse oracles, so
the error provably comes from the missing key.  This refutes "fails
fatally at construction" for the budget and the weight. -/
theorem claimC4_counterexample :
    playerCtor [("role", "black")] = .ok Piece.black ∧
    takeActionConfig stoiAll stofAll [("role", "black")]
      = .error "out_of_range: N" := by
  exact ⟨rfl, rfl⟩

/-- C4 amended: an invalid side identifier is fatal at construction; the
playout budget and exploration weight are never examined at construction
— it succeeds whatever N and c hold — and an invalid or missing budget
or weight (a missing key, or a value whose stoi/stof parse fails,
modelled by the parse oracles returning none) instead raises an error at
the start of the first take_action. -/
theorem claimC4_amended :
    (∀ args : List (String × String),
      roleOf args ≠ "black" → roleOf args ≠ "white" →
      ∃ e, playerCtor args = .error e) ∧
    (∀ (stoiM : String → Option ℤ) (stofM : String → Option ℚ)
        (args : List (String × String)),
      (metaFind (metaPairs args) "N" = none ∨
        (∃ s, metaFind (metaPairs args) "N" = some s ∧ stoiM s = none) ∨
        metaFind (metaPairs args) "c" = none ∨
        (∃ s, metaFind (metaPairs args) "c" = some s ∧ stofM s = none)) →
      ∃ e, takeActionConfig stoiM stofM args = .error e) ∧
    (∀ args : List (String × String),
      (nameOf args).toList.any (fun ch => badNameChars.contains ch) = false →
      roleOf args = "black" →
      playerCtor args = .ok Piece.black) := by
  refine ⟨?_, ?_, ?_⟩
  · intro args hb hw
    simp only [playerCtor]
    by_cases hn : (nameOf args).toList.any (fun ch => badNameChars.contains ch)
    · rw [if_pos hn]
      exact ⟨_, rfl⟩
    · rw [if_neg hn, if_neg hb, if_neg hw, if_pos rfl]
      exact ⟨_, rfl⟩
  · intro stoiM stofM args hbad
    cases hN : metaFind (metaPairs args) "N" with
    | none => exact ⟨"out_of_range: N", by simp only [takeActionConfig, hN]⟩
    | some sN =>
      cases hsN : stoiM sN with
      | none =>
        exact ⟨"stoi: invalid argument", by simp only [takeActionConfig, hN, hsN]⟩
      | some n =>
        cases hC : metaFind (metaPairs args) "c" with
        | none =>
          exact ⟨"out_of_range: c", by simp only [takeActionConfig, hN, hsN, hC]⟩
        | some sC =>
          cases hsC : stofM sC with
          | none =>
            exact ⟨"stof: invalid argument",
              by simp only [takeActionConfig, hN, hsN, hC, hsC]⟩
          | some cw =>
            exfalso
            rcases hbad with h | ⟨s, hs1, hs2⟩ | h | ⟨s, hs1, hs2⟩
            · rw [hN] at h
              exact Option.noConfusion h
            · rw [hN] at hs1
              rw [Option.some.inj hs1] at hsN
              rw [hsN] at hs2
              exact Option.noConfusion hs2
            · rw [hC] at h
              exact Option.noConfusion h
            · rw [hC] at hs1
              rw [Option.some.inj hs1] at hsC
              rw [hsC] at hs2
              exact Option.noConfusion hs2
  · intro args hn hr
    simp only [playerCtor]
    rw [if_neg (by rw [hn]; exact Bool.false_ne_true), hr, if_pos rfl,
      if_neg (by decide : ¬ Piece.black = Piece.empty)]

/-- C4 witness: the amended behaviour at concrete configurations — an
invalid role fails at construction; construction succeeds even with
unparsable N and c present; a missing budget, and separately an
unparsable weight, each fail at the first take_action. -/
theorem claimC4_witness :
    (∃ e, playerCtor [("role", "x")] = .error e) ∧
    playerCtor [("role", "black"), ("N", "junk"), ("c", "junk")]
      = .ok Piece.black ∧
    (∃ e, takeActionConfig stoiAll stofAll [("role", "black")] = .error e) ∧
    (∃ e, takeActionConfig stoiAll stofNone
      [("role", "black"), ("N", "7"), ("c", "zzz")] = .error e) :=
  ⟨claimC4_amended.1 [("role", "x")] (by decide) (by decide),
   claimC4_amended.2.2 [("role", "black"), ("N", "junk"), ("c", "junk")]
     (by decide) (by decide),
   claimC4_amended.2.1 stoiAll stofAll [("role", "black")] (Or.inl (by decide)),
   claimC4_amended.2.1 stoiAll stofNone [("role", "black"), ("N", "7"), ("c", "zzz")]
     (Or.inr (Or.inr (Or.inr ⟨"zzz", by decide, rfl⟩)))⟩

/-- C5 counterexample: a tree whose selected child maps back to no legal
root move does not trigger any assertion; decision extraction returns
the empty action to the caller (after deleting the tree), exactly the
value used for the no-legal-move outcome (agent.h lines 144-154). -/
theorem claimC5_counterexample :
    findMove ap5 [0] 0 (5 : ℕ) = none ∧
    decisionExtract ap5 [0] (0 : ℕ) corruptRoot = (none, 2) := by
  constructor
  · norm_num [findMove, ap5]
  · norm_num [decisionExtract, corruptRoot, Node.childs, argmaxVisit, foldMax,
      Node.visit_count, Node.state, findMove, ap5, deleteCount, deleteCountL]

/-- C5 amended: when the selected root child fails to map back to any
legal root move, the engine returns the empty action to the caller — a
normal, recoverable return indistinguishable from the no-legal-move
outcome — rather than failing an assertion. -/
theorem claimC5_amended [DecidableEq B] (ap : M → B → Option B) (spc : List M)
    (state : B) (root : Node B) (i : ℕ) (best : Node B)
    (hne : root.childs.length ≠ 0)
    (hmax : argmaxVisit root.childs = some i)
    (hbest : root.childs.get? i = some best)
    (hnomap : findMove ap spc state best.state = none) :
    decisionExtract ap spc state root = (none, deleteCount root) := by
  rw [decisionExtract_cons ap spc state root i best hne hmax hbest, hnomap]

/-- C5 witness: the amended behaviour on the concrete corrupted tree. -/
theorem claimC5_witness :
    decisionExtract ap5 [0] (0 : ℕ) corruptRoot = (none, deleteCount corruptRoot) :=
  claimC5_amended ap5 [0] 0 corruptRoot 0 (Node.mk 5 1 0 0 1 [])
    (by norm_num [corruptRoot, Node.childs])
    (by norm_num [argmaxVisit, foldMax, corruptRoot, Node.childs, Node.visit_count])
    (by norm_num [corruptRoot, Node.childs])
    (by norm_num [findMove, ap5, Node.state])

/-- C6: with at least one root child and nonnegative visit counters (an
invariant of every reachable tree), decision extraction selects the
first child attaining the maximal visit_count (strict comparison against
a running maximum keeps the first-encountered on ties, agent.h lines
137-142) and returns the first candidate move whose application to the
root position equals that child's state; such a move is returned
whenever one exists, and any returned move reproduces the child's
position. -/
theorem claimC6_extraction [DecidableEq B] (ap : M → B → Option B) (spc : List M)
    (state : B) (root : Node B)
    (hne : root.childs ≠ [])
    (hnn : ∀ x ∈ root.childs, 0 ≤ x.visit_count) :
    ∃ (i : ℕ) (best : Node B), argmaxVisit root.childs = some i ∧
      root.childs.get? i = some best ∧
      IsFirstArgmaxVisit root.childs i ∧
      decisionExtract ap spc state root
        = (findMove ap spc state best.state, deleteCount root) ∧
      (∀ m, findMove ap spc state best.state = some m → ap m state = some best.state) ∧
      ((∃ m ∈ spc, ap m state = some best.state) →
        (findMove ap spc state best.state).isSome) := by
  obtain ⟨i, hmax, hfam⟩ := argmaxVisit_first root.childs hne hnn
  obtain ⟨hb, h1, h2⟩ := hfam
  refine ⟨i, root.childs.get ⟨i, hb⟩, hmax, List.get?_eq_get hb, ⟨hb, h1, h2⟩, ?_, ?_, ?_⟩
  · exact decisionExtract_cons ap spc state root i _
      (fun h0 => hne (List.length_eq_zero.mp h0)) hmax (List.get?_eq_get hb)
  · intro m hm
    exact findMove_sound ap spc state _ m hm
  · intro hex
    exact findMove_isSome ap spc state _ hex

/-- C6 witness: extraction on the concrete tree produced by one cycle of
the stone game. -/
theorem claimC6_witness :
    ∃ (i : ℕ) (best : Node ℕ),
      argmaxVisit (Node.mk (0 : ℕ) 1 0 0 1
        [Node.mk 1 0 0 10000 0 [], Node.mk 1 0 0 10000 0 []]).childs = some i ∧
      (Node.mk (0 : ℕ) 1 0 0 1
        [Node.mk 1 0 0 10000 0 [], Node.mk 1 0 0 10000 0 []]).childs.get? i = some best ∧
      IsFirstArgmaxVisit (Node.mk (0 : ℕ) 1 0 0 1
        [Node.mk 1 0 0 10000 0 [], Node.mk 1 0 0 10000 0 []]).childs i ∧
      decisionExtract ctxG.apply [0, 1] 0 (Node.mk (0 : ℕ) 1 0 0 1
          [Node.mk 1 0 0 10000 0 [], Node.mk 1 0 0 10000 0 []])
        = (findMove ctxG.apply [0, 1] 0 best.state,
          deleteCount (Node.mk (0 : ℕ) 1 0 0 1
            [Node.mk 1 0 0 10000 0 [], Node.mk 1 0 0 10000 0 []])) ∧
      (∀ m, findMove ctxG.apply [0, 1] 0 best.state = some m →
        ctxG.apply m 0 = some best.state) ∧
      ((∃ m ∈ [0, 1], ctxG.apply m 0 = some best.state) →
        (findMove ctxG.apply [0, 1] 0 best.state).isSome) :=
  claimC6_extraction ctxG.apply [0, 1] 0
    (Node.mk 0 1 0 0 1 [Node.mk 1 0 0 10000 0 [], Node.mk 1 0 0 10000 0 []])
    (by simp [Node.childs])
    (by
      intro x hx
      simp only [Node.childs] at hx
      rcases List.mem_cons.mp hx with h | h
      · rw [h]; norm_num [Node.visit_count]
      · have h2 : x = Node.mk 1 0 0 10000 0 [] := by simpa using h
        rw [h2]; norm_num [Node.visit_count])

/-- C7: whenever the root has no children once the cycles are over —
including a zero playout budget, where no cycle ever runs and the root
keeps no children even though legal moves may exist — take_action
returns the empty action (agent.h lines 129-131), a normal distinguished
value, not an exception. -/
theorem claimC7_no_children [DecidableEq B] (ctx : Ctx B M) (fuel : ℕ) (state : B)
    (spc opp : List M) :
    (∃ d : Decision B M, takeAction ctx fuel 0 state spc opp = .ok d ∧
      d.act = none ∧ d.tree = newNode state) ∧
    (∀ (budget : ℕ) (d : Decision B M),
      takeAction ctx fuel budget state spc opp = .ok d →
      d.tree.childs = [] → d.act = none) := by
  constructor
  · have h0 : runCycles ctx fuel 0 (newNode state) state
        { spc := spc, opp := opp, our_turn := true, total := 0, ridx := 0, alloc := 1 }
        = .ok (newNode state,
          { spc := spc, opp := opp, our_turn := true, total := 0, ridx := 0, alloc := 1 }) := by
      simp [runCycles]
    refine ⟨_, takeAction_ok ctx fuel 0 state spc opp (newNode state) _ h0, ?_, rfl⟩
    simp [decisionExtract_nil ctx.apply _ state (newNode state) (childs_newNode state)]
  · intro budget d h hnil
    revert h
    simp only [takeAction]
    cases hrc : runCycles ctx fuel budget (newNode state) state
        { spc := spc, opp := opp, our_turn := true, total := 0, ridx := 0, alloc := 1 } with
    | error e => intro h; simp at h
    | ok pr =>
      obtain ⟨root2, st2⟩ := pr
      intro h
      simp only [Except.ok.injEq] at h
      rw [← h] at hnil ⊢
      simp only [Decision.tree] at hnil
      simp only [Decision.act]
      rw [decisionExtract_nil ctx.apply _ state root2 hnil]

/-- C7 witness: budget 0 on the stone game, where legal moves exist,
still reports the empty action. -/
theorem claimC7_witness :
    ∃ d : Decision ℕ ℕ, takeAction ctxG 8 0 (0 : ℕ) [0, 1] [0, 1] = .ok d ∧
      d.act = none ∧ d.tree = newNode 0 :=
  (claimC7_no_children ctxG 8 0 [0, 1] [0, 1]).1

/-- C8: during selection at a node whose children are fully expanded
(one child per legal move), if at least one child is unvisited, the
child chosen for descent is unvisited: the visited-count test routes
selection into the expansion branch (agent.h lines 271-291), which
filters on visit_count == 0, and the sentinel score 10000 of unvisited
children exceeds the -100 initial maximum, so one of them is chosen. -/
theorem claimC8_unvisited (ctx : Ctx B M) (st : SState M)
    (cs : List (Node B)) (nlm : ℕ)
    (hlen : cs.length = nlm)
    (hsent : ∀ x ∈ cs, x.visit_count = 0 → x.uct_value = 10000)
    (hex : ∃ x ∈ cs, x.visit_count = 0) :
    ∃ (cs2 : List (Node B)) (i : ℕ) (st2b : SState M),
      selectStep ctx st cs nlm = (cs2, some i, st2b) ∧
      ∃ hj : i < cs2.length, (cs2.get ⟨i, hj⟩).visit_count = 0 := by
  obtain ⟨x, hx, hvx⟩ := hex
  have hlt : countVisited cs < cs.length := countVisited_lt_of_unvisited cs x hx hvx
  have hcv : countVisited cs ≠ nlm := by omega
  have hcs2 : (pickRanks (ctx.oracle st.ridx) cs).Perm cs := pickRanks_perm _ _
  have hx2 : x ∈ pickRanks (ctx.oracle st.ridx) cs := hcs2.mem_iff.mpr hx
  obtain ⟨u, hu⟩ := List.mem_iff_get.mp hx2
  have hxu : (-100 : ℚ) < ((pickRanks (ctx.oracle st.ridx) cs).get u).uct_value := by
    rw [hu, hsent x hx hvx]
    norm_num
  have hsome : (selUnvisited (pickRanks (ctx.oracle st.ridx) cs)).isSome := by
    apply foldMax_isSome
    refine ⟨u.1, u.2, ?_, hxu⟩
    show decide (((pickRanks (ctx.oracle st.ridx) cs).get u).visit_count = 0) = true
    rw [hu]
    simp [hvx]
  obtain ⟨i, hi⟩ := Option.isSome_iff_exists.mp hsome
  obtain ⟨hb, hp⟩ := foldMax_zero_some _ _ _ _ hi
  refine ⟨pickRanks (ctx.oracle st.ridx) cs, i, { st with ridx := st.ridx + 1 }, ?_, hb, ?_⟩
  · simp [selectStep, hcv, shuffleChilds, hi]
  · exact of_decide_eq_true hp

/-- C8 witness: a single fresh child is selected (it is unvisited). -/
theorem claimC8_witness :
    ∃ (cs2 : List (Node ℕ)) (i : ℕ) (st2b : SState ℕ),
      selectStep ctxN stN [newNode (0 : ℕ)] 1 = (cs2, some i, st2b) ∧
      ∃ hj : i < cs2.length, (cs2.get ⟨i, hj⟩).visit_count = 0 :=
  claimC8_unvisited ctxN stN [newNode 0] 1 (by norm_num)
    (by
      intro x hx h0
      have hx2 : x = newNode 0 := by simpa using hx
      rw [hx2]
      simp)
    ⟨newNode 0, by simp, by simp⟩

/-- C9 counterexample: with a zero budget on the stone game, the root
has no children and take_action returns through agent.h line 130 without
ever calling delete_node: nothing is freed (freed = 0) although the
decision allocated one node (the root, deleteCount = 1, alloc = 1), so
the tree is not destroyed on this return path. -/
theorem claimC9_counterexample :
    takeAction ctxG 8 0 (0 : ℕ) [0, 1] [0, 1]
      = .ok { act := none, freed := 0, tree := newNode 0,
              stF := { spc := [0, 1], opp := [0, 1], our_turn := true,
                       total := 0, ridx := 0, alloc := 1 } } ∧
    deleteCount (newNode (0 : ℕ)) = 1 := by
  constructor
  · norm_num [takeAction, runCycles, decisionExtract, newNode, Node.childs, ctxG]
  · simp

/-- C9 amended: on the return paths that select a child (a move found,
or the fallback empty action), delete_node releases exactly every node
the decision allocated; on the childless return path (agent.h line 130)
nothing is freed and the allocated nodes (the root) remain. -/
theorem claimC9_amended [DecidableEq B] (ctx : Ctx B M) (fuel budget : ℕ) (state : B)
    (spc opp : List M) (d : Decision B M)
    (h : takeAction ctx fuel budget state spc opp = .ok d) :
    (d.tree.childs ≠ [] → d.freed = d.stF.alloc ∧ d.freed = deleteCount d.tree) ∧
    (d.tree.childs = [] → d.freed = 0 ∧ d.stF.alloc = deleteCount d.tree) := by
  revert h
  simp only [takeAction]
  cases hrc : runCycles ctx fuel budget (newNode state) state
      { spc := spc, opp := opp, our_turn := true, total := 0, ridx := 0, alloc := 1 } with
  | error e => intro h; simp at h
  | ok pr =>
    obtain ⟨root2, st2⟩ := pr
    intro h
    simp only [Except.ok.injEq] at h
    obtain ⟨q1, q2⟩ := runCycles_basic ctx fuel budget (newNode state) state _ root2 st2 hrc
    simp only [SState.alloc, deleteCount_newNode] at q1
    have halloc : st2.alloc = deleteCount root2 := by omega
    rw [← h]
    constructor
    · intro hne
      simp only [Decision.tree] at hne
      have hT : TreeInv ConsP true root2 := runCycles_cons ctx fuel budget
        (newNode state) state _ root2 st2 true hrc
        (TreeInv_newNode true state (consP_newNode true state))
      have hnn : ∀ x ∈ root2.childs, 0 ≤ x.visit_count := fun x hx =>
        TreeInv_cons_visit_nonneg (hT.child x hx)
      obtain ⟨i, hmax, hb, -, -⟩ := argmaxVisit_first root2.childs hne hnn
      have hext := decisionExtract_cons ctx.apply
        ({ st2 with total := 0 } : SState M).spc state root2 i _
        (fun h0 => hne (List.length_eq_zero.mp h0)) hmax (List.get?_eq_get hb)
      simp only [Decision.freed, Decision.stF, Decision.tree, SState.alloc]
      rw [hext]
      exact ⟨halloc.symm, rfl⟩
    · intro hnil
      simp only [Decision.tree] at hnil
      simp only [Decision.freed, Decision.stF, Decision.tree, SState.alloc]
      rw [decisionExtract_nil ctx.apply _ state root2 hnil]
      exact ⟨rfl, halloc⟩

set_option maxHeartbeats 2000000 in
/-- C9 witness: the amended teardown accounting on a concrete one-cycle
decision of the stone game (three nodes allocated, three freed). -/
theorem claimC9_witness :
    (d9.tree.childs ≠ [] → d9.freed = d9.stF.alloc ∧ d9.freed = deleteCount d9.tree) ∧
    (d9.tree.childs = [] → d9.freed = 0 ∧ d9.stF.alloc = deleteCount d9.tree) :=
  claimC9_amended ctxG 8 1 0 [0, 1] [0, 1] d9
    (by norm_num [takeAction, runCycles, insert, expandChilds, simulation, simLoop,
      shuffleSpc, shuffleOpp, pickRanks, firstLegal, updNode, newNode, Node.withChilds,
      Node.bumpRollout, Node.visit_count, Node.state, Node.childs, decisionExtract,
      argmaxVisit, foldMax, findMove, deleteCount, deleteCountL, ctxG, d9])

/-- C10: with a nonnegative exploration weight (and a log model that is
nonnegative from 1 on, true of the real logarithm), no decision ever
performs the out-of-bounds childs[-1] access: every descent step selects
a valid child index, because an unvisited child carries the sentinel
10000 > -100 and every visited child's score is nonnegative once the
playout counter is at least 1; moreover every tree reachable by a
decision satisfies the sentinel/nonnegativity invariant. -/
theorem claimC10_no_oob [DecidableEq B] (ctx : Ctx B M)
    (hc : 0 ≤ ctx.c) (hlg : ∀ q : ℚ, 1 ≤ q → 0 ≤ ctx.lg q)
    (fuel budget : ℕ) (state : B) (spc opp : List M) :
    takeAction ctx fuel budget state spc opp ≠ .error .oob ∧
    ∀ d : Decision B M, takeAction ctx fuel budget state spc opp = .ok d →
      TreeInv (ScoreP ctx.apply spc opp) true d.tree := by
  have hS0 : SInv spc opp
      ({ spc := spc, opp := opp, our_turn := true, total := 0, ridx := 0,
         alloc := 1 } : SState M) :=
    ⟨List.Perm.refl _, List.Perm.refl _, le_refl 0⟩
  have hT0 : TreeInv (ScoreP ctx.apply spc opp) true (newNode state) :=
    TreeInv_newNode true state (scoreP_newNode ctx.apply spc opp true state)
  obtain ⟨hnoob, hok⟩ := runCycles_score ctx spc opp hc hlg fuel budget
    (newNode state) state _ hS0 (by simp) hT0
  constructor
  · intro hbad
    revert hbad
    simp only [takeAction]
    cases hrc : runCycles ctx fuel budget (newNode state) state
        { spc := spc, opp := opp, our_turn := true, total := 0, ridx := 0, alloc := 1 } with
    | error e =>
      intro hbad
      simp at hbad
      rw [hbad] at hrc
      exact hnoob hrc
    | ok pr =>
      obtain ⟨root2, st2⟩ := pr
      intro hbad
      simp at hbad
  · intro d hd
    revert hd
    simp only [takeAction]
    cases hrc : runCycles ctx fuel budget (newNode state) state
        { spc := spc, opp := opp, our_turn := true, total := 0, ridx := 0, alloc := 1 } with
    | error e => intro hd; simp at hd
    | ok pr =>
      obtain ⟨root2, st2⟩ := pr
      intro hd
      simp only [Except.ok.injEq] at hd
      rw [← hd]
      simp only [Decision.tree]
      exact (hok root2 st2 hrc).1

/-- C10 witness: a concrete decision with weight 1 never hits the
out-of-bounds error. -/
theorem claimC10_witness :
    takeAction ctxG 8 1 (0 : ℕ) [0, 1] [0, 1] ≠ .error .oob :=
  (claimC10_no_oob ctxG (by norm_num [ctxG]) (fun q hq => le_refl 0)
    8 1 0 [0, 1] [0, 1]).1

end Claims

end MCTS
